import Mathlib

/-!
Verification development for the forest-fire simulation.

The embedding mirrors the two core source files:
* `src/geometry.rs` — 2D grid coordinates and the Moore neighborhood iterator
  (which works through `usize as isize` casts and `checked_add`);
* `src/forest.rs` — the `Forest` engine: per-cell `TreeState` kept in a
  `BTreeMap`, an active `BTreeSet`, a seeded RNG, and the three-pass `tick`.

`BTreeMap`/`BTreeSet` are embedded as association lists sorted in ascending
key order (the derived `Ord` on `GridPosition` is lexicographic: `x`, then
`y`), so that list order coincides with the ascending iteration order of the
Rust containers.  `f64` values (susceptibility, tree density, accumulator
entries) are embedded as rationals; the RNG is an abstract stream of uniform
draws together with a cursor, and `gen_bool p` compares the next draw
against `p` and advances the cursor.
-/

set_option maxHeartbeats 1000000

namespace ForestFire

/-! ### src/geometry.rs -/

/-- `GridPosition` from src/geometry.rs: a pair of `usize` coordinates. -/
structure GridPosition where
  x : Nat
  y : Nat
deriving DecidableEq

/-- `GridPosition::new`. -/
def GridPosition.new (x y : Nat) : GridPosition := ⟨x, y⟩

/-- The strict order on `GridPosition` derived by Rust's `#[derive(PartialOrd, Ord)]`:
lexicographic on `x`, then `y`.  This is the iteration order of the BTree containers. -/
def posLt (p q : GridPosition) : Prop :=
  p.x < q.x ∨ (p.x = q.x ∧ p.y < q.y)

instance : DecidableRel posLt := fun p q =>
  decidable_of_iff (p.x < q.x ∨ (p.x = q.x ∧ p.y < q.y)) Iff.rfl

/-- `isize::MAX` for the 64-bit targets the program builds for. -/
def isizeMax : Int := 2 ^ 63 - 1

/-- `isize::MIN`. -/
def isizeMin : Int := -(2 ^ 63)

/-- The value reinterpretation performed by `pos.x as isize` (a bit-cast of a
64-bit unsigned value into a signed one). -/
def usizeToIsize (n : Nat) : Int :=
  if n < 2 ^ 63 then (n : Int) else (n : Int) - 2 ^ 64

/-- `isize::checked_add`: `some` of the mathematical sum when it fits in an
`isize`, `none` on overflow. -/
def isizeCheckedAdd (a b : Int) : Option Int :=
  if isizeMin ≤ a + b ∧ a + b ≤ isizeMax then some (a + b) else none

/-- `MooreNeighborhood::DELTAS`, in source order. -/
def DELTAS : List (Int × Int) :=
  [(-1, 0), (1, 0), (0, -1), (0, 1), (-1, -1), (-1, 1), (1, 1), (1, -1)]

/-- `GridPosition::neighbors` / the `MooreNeighborhood` iterator from
src/geometry.rs, flattened into the list of positions it yields, in yield
order: for each delta in order, `pos_x.checked_add(delta.0)` and
`pos_y.checked_add(delta.1)` must both succeed and both be nonnegative,
and the sums are cast back to `usize`. -/
def GridPosition.neighbors (pos : GridPosition) : List GridPosition :=
  DELTAS.filterMap (fun delta =>
    match isizeCheckedAdd (usizeToIsize pos.x) delta.1,
          isizeCheckedAdd (usizeToIsize pos.y) delta.2 with
    | some x, some y =>
        if 0 ≤ x ∧ 0 ≤ y then some (GridPosition.new x.toNat y.toNat) else none
    | _, _ => none)

/-! ### src/forest.rs: cell states -/

/-- `TreeState` from src/forest.rs.  `Burning` carries the absolute tick at
which the cell converts to `Burnt`.  The `#[default]` variant is `Uncaught`. -/
inductive TreeState where
  | Uncaught : TreeState
  | Catching : TreeState
  | Burning : Nat → TreeState
  | Burnt : TreeState
deriving DecidableEq

/-! ### BTreeMap / BTreeSet embedding

Sorted association lists (ascending `posLt` on keys).  `mapLookup` is
`BTreeMap::get`, `mapInsert` is `BTreeMap::insert` (replace on equal key),
`setInsert`/`setRemove` are the `BTreeSet` operations, and iteration over a
BTree container is iteration over the underlying list. -/

def mapLookup {α : Type} : List (GridPosition × α) → GridPosition → Option α
  | [], _ => none
  | (k, v) :: rest, q => if q = k then some v else mapLookup rest q

def mapInsert {α : Type} : List (GridPosition × α) → GridPosition → α → List (GridPosition × α)
  | [], k, v => [(k, v)]
  | (k', v') :: rest, k, v =>
    if posLt k k' then (k, v) :: (k', v') :: rest
    else if k = k' then (k, v) :: rest
    else (k', v') :: mapInsert rest k v

def setInsert : List GridPosition → GridPosition → List GridPosition
  | [], k => [k]
  | h :: t, k =>
    if posLt k h then k :: h :: t
    else if k = h then h :: t
    else h :: setInsert t k

def setRemove : List GridPosition → GridPosition → List GridPosition
  | [], _ => []
  | h :: t, k => if k = h then t else h :: setRemove t k

/-- `*self.may_burn.entry(neighbor).or_insert(1.0) *= factor`: the entry
becomes (previous value, defaulting to 1) times `factor`. -/
def mapMulEntry (m : List (GridPosition × ℚ)) (k : GridPosition) (factor : ℚ) :
    List (GridPosition × ℚ) :=
  mapInsert m k (((mapLookup m k).getD 1) * factor)

/-! ### RNG embedding

`StdRng` is modelled as a stream of uniform draws in `[0,1)` plus a cursor;
`gen_bool(p)` returns `true` (success) with probability `p`, here: whether
the next draw is below `p`, and advances the cursor by one.  Each `gen_bool`
call consumes exactly one draw. -/

structure StdRng where
  draws : Nat → ℚ
  idx : Nat

def StdRng.genBool (rng : StdRng) (p : ℚ) : Bool × StdRng :=
  (decide (rng.draws rng.idx < p), ⟨rng.draws, rng.idx + 1⟩)

/-! ### The Forest engine -/

/-- `Forest` from src/forest.rs.  The `tick` counter field is named
`tickCount` here because Lean cannot have both a field `tick` and the
method `Forest.tick` below; everything else keeps the source names
(including the `suceptibility` spelling). -/
structure Forest where
  grid_width : Nat
  grid_height : Nat
  suceptibility : ℚ
  burn_duration : Nat
  rng : StdRng
  trees : List (GridPosition × TreeState)
  active : List GridPosition
  tickCount : Nat
  may_burn : List (GridPosition × ℚ)
  changeset : List (GridPosition × TreeState)

/-- The double placement loop at the head of `Forest::new`: one
`gen_bool(tree_density)` draw per cell, `x` outer and `y` inner, inserting
an `Uncaught` tree (`Default::default()`) on success. -/
def placeTrees (grid_width grid_height : Nat) (tree_density : ℚ) (rng : StdRng) :
    List (GridPosition × TreeState) × StdRng :=
  (List.range grid_width).foldl (fun acc x =>
    (List.range grid_height).foldl (fun (acc : List (GridPosition × TreeState) × StdRng) y =>
      let draw := acc.2.genBool tree_density
      if draw.1 then (mapInsert acc.1 (GridPosition.new x y) TreeState.Uncaught, draw.2)
      else (acc.1, draw.2)) acc) ([], rng)

/-- `Forest::new`: run the placement loop, then insert the ignition cell
`(grid_width / 2, grid_width / 2)` (the source uses `grid_width` for both
components) as `Catching` and seed the active set with it.  The
preallocated `changeset` capacity is irrelevant to state. -/
def Forest.new (grid_width grid_height : Nat) (suceptibility : ℚ) (burn_duration : Nat)
    (tree_density : ℚ) (rng : StdRng) : Forest :=
  let placed := placeTrees grid_width grid_height tree_density rng
  let center := GridPosition.new (grid_width / 2) (grid_width / 2)
  { grid_width := grid_width
    grid_height := grid_height
    suceptibility := suceptibility
    burn_duration := burn_duration
    rng := placed.2
    trees := mapInsert placed.1 center TreeState.Catching
    active := setInsert [] center
    tickCount := 0
    may_burn := []
    changeset := [] }

/-- `Forest::steady_state`. -/
def Forest.steady_state (f : Forest) : Bool :=
  f.active.length == 0

/-- The inner loop of the `Burning` arm of pass 1: for each yielded neighbor
holding an `Uncaught` tree, multiply its accumulator entry by `1 - p`. -/
def nbrFold (trees : List (GridPosition × TreeState)) (suceptibility : ℚ)
    (ns : List GridPosition) (m : List (GridPosition × ℚ)) : List (GridPosition × ℚ) :=
  ns.foldl (fun m neighbor =>
    match mapLookup trees neighbor with
    | some TreeState.Uncaught => mapMulEntry m neighbor (1 - suceptibility)
    | _ => m) m

/-- One step of the first `tick` loop (over `self.active.iter()`), acting on
the pair (may_burn, changeset).  The `none` case is where the source runs
`.expect("active trees should always be in the tree map")` and aborts; the
abort condition is modelled separately by `Forest.tickAborts` and proved
unreachable, so the state transformer simply skips it. -/
def pass1Step (trees : List (GridPosition × TreeState)) (suceptibility : ℚ)
    (burn_duration tickCount : Nat)
    (acc : List (GridPosition × ℚ) × List (GridPosition × TreeState))
    (grid_pos : GridPosition) :
    List (GridPosition × ℚ) × List (GridPosition × TreeState) :=
  match mapLookup trees grid_pos with
  | some TreeState.Catching =>
      (acc.1, acc.2 ++ [(grid_pos, TreeState.Burning (tickCount + burn_duration))])
  | some (TreeState.Burning u) =>
      let mb := nbrFold trees suceptibility grid_pos.neighbors acc.1
      if tickCount ≥ u then (mb, acc.2 ++ [(grid_pos, TreeState.Burnt)]) else (mb, acc.2)
  | some TreeState.Uncaught => acc
  | some TreeState.Burnt => acc
  | none => acc

/-- The whole first pass of `Forest::tick`: fold `pass1Step` over the active
set in ascending order, starting from the engine's (empty between ticks)
`may_burn` and `changeset` buffers. -/
def Forest.propagate (f : Forest) :
    List (GridPosition × ℚ) × List (GridPosition × TreeState) :=
  f.active.foldl (pass1Step f.trees f.suceptibility f.burn_duration f.tickCount)
    (f.may_burn, f.changeset)

/-- One step of the second `tick` loop (over `self.may_burn.iter()`):
`if !self.rng.gen_bool(prob) { changeset.push((pos, Catching)) }`. -/
def pass2Step (acc : StdRng × List (GridPosition × TreeState)) (e : GridPosition × ℚ) :
    StdRng × List (GridPosition × TreeState) :=
  let draw := acc.1.genBool e.2
  if !draw.1 then (draw.2, acc.2 ++ [(e.1, TreeState.Catching)]) else (draw.2, acc.2)

/-- One step of the commit loop (over `self.changeset.drain(..)`): insert
into the tree map, and maintain the active set (`Catching` inserts,
`Burnt` removes, other states leave it alone). -/
def commitStep (acc : List (GridPosition × TreeState) × List GridPosition)
    (e : GridPosition × TreeState) :
    List (GridPosition × TreeState) × List GridPosition :=
  let t := mapInsert acc.1 e.1 e.2
  match e.2 with
  | TreeState.Catching => (t, setInsert acc.2 e.1)
  | TreeState.Burnt => (t, setRemove acc.2 e.1)
  | _ => (t, acc.2)

/-- `Forest::tick`: the three passes, then clear the transient buffers
(`may_burn.clear()`, `changeset.drain(..)`) and advance the clock. -/
def Forest.tick (f : Forest) : Forest :=
  let mbcs := f.propagate
  let rngcs := mbcs.1.foldl pass2Step (f.rng, mbcs.2)
  let ta := rngcs.2.foldl commitStep (f.trees, f.active)
  { f with
    rng := rngcs.1
    trees := ta.1
    active := ta.2
    tickCount := f.tickCount + 1
    may_burn := []
    changeset := [] }

/-- The condition under which `Forest::tick` would hit
`.expect("active trees should always be in the tree map")` and abort: some
active coordinate is absent from the tree map. -/
def Forest.tickAborts (f : Forest) : Bool :=
  f.active.any (fun pos => (mapLookup f.trees pos).isNone)

/-- States reachable by `Forest::new` followed by any number of `tick`s. -/
def Reachable (f : Forest) : Prop :=
  ∃ w h p d dens rng n, f = Forest.tick^[n] (Forest.new w h p d dens rng)

/-- Whether an optional cell state makes the coordinate active
(`Catching` or `Burning`). -/
def isActive : Option TreeState → Bool
  | some TreeState.Catching => true
  | some (TreeState.Burning _) => true
  | _ => false

/-- Whether an optional cell state is `Burning`. -/
def isBurningB : Option TreeState → Bool
  | some (TreeState.Burning _) => true
  | _ => false

/-- The number of `Burning` cells of the tree map adjacent to `q`
(adjacent: `q` is among the cell's yielded Moore neighbors). -/
def Forest.burningNeighborCount (f : Forest) (q : GridPosition) : Nat :=
  (f.trees.filter (fun e => isBurningB (some e.2) && decide (q ∈ e.1.neighbors))).length

/-! ### Derived views of the tick passes, used to state and prove facts
about `Forest.tick`.  These are proved equal to the folds inside `tick`. -/

/-- The accumulator-only effect of one active coordinate in pass 1. -/
def mbOf (trees : List (GridPosition × TreeState)) (suceptibility : ℚ)
    (m : List (GridPosition × ℚ)) (pos : GridPosition) : List (GridPosition × ℚ) :=
  match mapLookup trees pos with
  | some (TreeState.Burning _) => nbrFold trees suceptibility pos.neighbors m
  | _ => m

/-- The changeset entries pushed by one active coordinate in pass 1. -/
def entryOf (trees : List (GridPosition × TreeState)) (burn_duration tickCount : Nat)
    (pos : GridPosition) : List (GridPosition × TreeState) :=
  match mapLookup trees pos with
  | some TreeState.Catching => [(pos, TreeState.Burning (tickCount + burn_duration))]
  | some (TreeState.Burning u) => if tickCount ≥ u then [(pos, TreeState.Burnt)] else []
  | _ => []

/-- All changeset entries pushed by pass 1, in push order. -/
def pass1Changes (trees : List (GridPosition × TreeState)) (burn_duration tickCount : Nat) :
    List GridPosition → List (GridPosition × TreeState)
  | [] => []
  | pos :: rest =>
      entryOf trees burn_duration tickCount pos ++ pass1Changes trees burn_duration tickCount rest

/-- All changeset entries pushed by pass 2, in push order: the entry at
index `j` of the accumulator consumes the draw at cursor `i + j` and pushes
a `Catching` transition exactly when that draw fails. -/
def pass2List (d : Nat → ℚ) (i : Nat) : List (GridPosition × ℚ) → List (GridPosition × TreeState)
  | [] => []
  | e :: rest =>
      (if d i < e.2 then [] else [(e.1, TreeState.Catching)]) ++ pass2List d (i + 1) rest

/-- The last state written for `pos` by a changeset, if any (later entries
shadow earlier ones at commit time). -/
def lastWrite : List (GridPosition × TreeState) → GridPosition → Option TreeState
  | [], _ => none
  | e :: rest, pos =>
    match lastWrite rest pos with
    | some s => some s
    | none => if e.1 = pos then some e.2 else none

/-- How a committed state affects active-set membership: `Catching` inserts,
`Burnt` removes, other states leave the set alone. -/
def actOf : TreeState → Option Bool
  | TreeState.Catching => some true
  | TreeState.Burnt => some false
  | _ => none

/-- The last active-set effect for `pos` in a changeset, if any. -/
def lastAct : List (GridPosition × TreeState) → GridPosition → Option Bool
  | [], _ => none
  | e :: rest, pos =>
    match lastAct rest pos with
    | some b => some b
    | none => if e.1 = pos then actOf e.2 else none

/-- Keys of an association list are pairwise `posLt`-ascending. -/
def keysSorted {α : Type} (m : List (GridPosition × α)) : Prop :=
  m.Pairwise (fun e e' => posLt e.1 e'.1)

/-- The global state invariant connecting the containers of a `Forest`:
the BTree containers are sorted, the transient buffers are empty between
ticks, and the active set holds exactly the `Catching`/`Burning` cells. -/
structure Inv (f : Forest) : Prop where
  trees_sorted : keysSorted f.trees
  active_sorted : f.active.Pairwise posLt
  mb_empty : f.may_burn = []
  cs_empty : f.changeset = []
  consistent : ∀ pos, pos ∈ f.active ↔ isActive (mapLookup f.trees pos) = true

instance : IsIrrefl GridPosition posLt :=
  ⟨fun p h => by simp [posLt] at h⟩

/-- The accumulation hits neighbor `n` on behalf of target `q` iff `n` is `q`
and `q` holds an `Uncaught` tree. -/
def uncaughtHit (trees : List (GridPosition × TreeState)) (q : GridPosition)
    (n : GridPosition) : Bool :=
  decide (n = q) && decide (mapLookup trees n = some TreeState.Uncaught)

/-- The total number of accumulation hits that coordinate `q` receives in
pass 1 while processing the active list `l`. -/
def mbCount (trees : List (GridPosition × TreeState)) (l : List GridPosition)
    (q : GridPosition) : Nat :=
  (l.map (fun pos =>
    match mapLookup trees pos with
    | some (TreeState.Burning _) => pos.neighbors.countP (uncaughtHit trees q)
    | _ => 0)).sum

/-- The accumulator as it stands at the end of pass 1 of a tick started from
an empty `may_burn` buffer. -/
def Forest.tickMayBurn (f : Forest) : List (GridPosition × ℚ) :=
  f.active.foldl (mbOf f.trees f.suceptibility) []

/-- The whole changeset committed by a tick started from empty buffers. -/
def Forest.tickChangeset (f : Forest) : List (GridPosition × TreeState) :=
  pass1Changes f.trees f.burn_duration f.tickCount f.active ++
    pass2List f.rng.draws f.rng.idx f.tickMayBurn

/-- A concrete random source for witnesses: every draw is 0. -/
def rng0 : StdRng := ⟨fun _ => 0, 0⟩

/-- Position of a state in the chain Uncaught → Catching → Burning → Burnt. -/
def TreeState.rank : TreeState → Nat
  | TreeState.Uncaught => 0
  | TreeState.Catching => 1
  | TreeState.Burning _ => 2
  | TreeState.Burnt => 3

/-- The neighbor list exactly as the C7 claim words it: each of the eight
offsets added to the coordinates as unbounded integers, omitting any result
whose x or y would be negative, in the fixed offset order.  (This follows
the claim's words; it is to be compared with the source's
`GridPosition.neighbors`.) -/
def claimNeighbors (pos : GridPosition) : List GridPosition :=
  DELTAS.filterMap (fun delta =>
    if 0 ≤ (pos.x : Int) + delta.1 ∧ 0 ≤ (pos.y : Int) + delta.2 then
      some (GridPosition.new ((pos.x : Int) + delta.1).toNat ((pos.y : Int) + delta.2).toNat)
    else none)

/-- A forest one tick after construction on a fully-planted 2×2 grid with
susceptibility 1/2: its single `Burning` cell has three `Uncaught`
neighbors, giving a non-trivial accumulator. -/
def c5Forest : Forest := Forest.tick (Forest.new 2 2 (1/2) 1 1 rng0)

/-! ### Order lemmas -/

theorem posLt_irrefl (p : GridPosition) : ¬ posLt p p := by
  simp [posLt]

theorem posLt_trans {p q r : GridPosition} (h1 : posLt p q) (h2 : posLt q r) : posLt p r := by
  rcases h1 with h1 | ⟨h1a, h1b⟩ <;> rcases h2 with h2 | ⟨h2a, h2b⟩ <;>
    simp only [posLt] <;> omega

theorem posLt_cases (p q : GridPosition) : posLt p q ∨ p = q ∨ posLt q p := by
  rcases p with ⟨px, py⟩; rcases q with ⟨qx, qy⟩
  simp only [posLt, GridPosition.mk.injEq]
  omega

theorem posLt_ne {p q : GridPosition} (h : posLt p q) : p ≠ q := by
  rintro rfl; exact posLt_irrefl p h

/-! ### Map and set lemmas -/

theorem mapLookup_mapInsert {α : Type} (m : List (GridPosition × α)) (k q : GridPosition)
    (v : α) :
    mapLookup (mapInsert m k v) q = if q = k then some v else mapLookup m q := by
  induction m with
  | nil => simp [mapInsert, mapLookup]
  | cons e rest ih =>
    obtain ⟨k', v'⟩ := e
    simp only [mapInsert]
    by_cases hlt : posLt k k'
    · rw [if_pos hlt]
      by_cases hq : q = k
      · subst hq; simp [mapLookup]
      · simp [mapLookup, hq]
    · rw [if_neg hlt]
      by_cases hk : k = k'
      · rw [if_pos hk]; subst hk
        by_cases hq : q = k
        · subst hq; simp [mapLookup]
        · simp [mapLookup, hq]
      · rw [if_neg hk]
        by_cases hq : q = k'
        · subst hq
          have hqk : ¬ q = k := fun hh => hk hh.symm
          simp [mapLookup, hqk]
        · simp [mapLookup, hq, ih]

theorem mem_of_mem_mapInsert {α : Type} {m : List (GridPosition × α)} {k : GridPosition}
    {v : α} {e : GridPosition × α} (h : e ∈ mapInsert m k v) : e = (k, v) ∨ e ∈ m := by
  induction m with
  | nil =>
    simp only [mapInsert] at h
    exact Or.inl (List.mem_singleton.mp h)
  | cons hd rest ih =>
    obtain ⟨k', v'⟩ := hd
    simp only [mapInsert] at h
    by_cases hlt : posLt k k'
    · rw [if_pos hlt] at h
      rcases List.mem_cons.mp h with h2 | h2
      · exact Or.inl h2
      · exact Or.inr h2
    · rw [if_neg hlt] at h
      by_cases hk : k = k'
      · rw [if_pos hk] at h
        rcases List.mem_cons.mp h with h2 | h2
        · exact Or.inl h2
        · exact Or.inr (List.mem_cons_of_mem _ h2)
      · rw [if_neg hk] at h
        rcases List.mem_cons.mp h with h2 | h2
        · exact Or.inr (h2 ▸ List.mem_cons_self _ _)
        · rcases ih h2 with h3 | h3
          · exact Or.inl h3
          · exact Or.inr (List.mem_cons_of_mem _ h3)

theorem mapLookup_eq_none_iff {α : Type} (m : List (GridPosition × α)) (q : GridPosition) :
    mapLookup m q = none ↔ q ∉ m.map Prod.fst := by
  induction m with
  | nil => simp [mapLookup]
  | cons e rest ih =>
    obtain ⟨k, v⟩ := e
    by_cases hq : q = k
    · subst hq; simp [mapLookup]
    · simp [mapLookup, hq, ih, Ne.symm hq]

theorem mapLookup_isSome_of_mem_keys {α : Type} {m : List (GridPosition × α)}
    {q : GridPosition} (h : q ∈ m.map Prod.fst) : ∃ v, mapLookup m q = some v := by
  rcases ho : mapLookup m q with _ | v
  · exact absurd ((mapLookup_eq_none_iff m q).mp ho) (by simp [h])
  · exact ⟨v, rfl⟩

theorem mem_of_mapLookup_eq_some {α : Type} {m : List (GridPosition × α)}
    {q : GridPosition} {v : α} (h : mapLookup m q = some v) : (q, v) ∈ m := by
  induction m with
  | nil => simp [mapLookup] at h
  | cons e rest ih =>
    obtain ⟨k, v'⟩ := e
    by_cases hq : q = k
    · rw [show mapLookup ((k, v') :: rest) q = if q = k then some v' else mapLookup rest q
          from rfl, if_pos hq] at h
      subst hq
      obtain rfl := Option.some.inj h
      exact List.mem_cons_self _ _
    · rw [show mapLookup ((k, v') :: rest) q = if q = k then some v' else mapLookup rest q
          from rfl, if_neg hq] at h
      exact List.mem_cons_of_mem _ (ih h)

theorem mapLookup_eq_some_of_mem {α : Type} {m : List (GridPosition × α)}
    {k : GridPosition} {v : α} (hs : keysSorted m) (h : (k, v) ∈ m) :
    mapLookup m k = some v := by
  induction m with
  | nil => simp at h
  | cons e rest ih =>
    obtain ⟨k', v'⟩ := e
    simp only [keysSorted, List.pairwise_cons] at hs
    obtain ⟨hhead, htail⟩ := hs
    rcases List.mem_cons.mp h with heq | hmem
    · have heq' : k = k' ∧ v = v' := by simpa using heq
      obtain ⟨rfl, rfl⟩ := heq'
      simp [mapLookup]
    · have hlt : posLt k' k := by simpa using hhead (k, v) hmem
      have hk : ¬ k = k' := by
        rintro rfl
        exact posLt_irrefl k hlt
      simp only [mapLookup, if_neg hk]
      exact ih htail hmem

theorem keysSorted_mapInsert {α : Type} {m : List (GridPosition × α)} (k : GridPosition)
    (v : α) (hs : keysSorted m) : keysSorted (mapInsert m k v) := by
  induction m with
  | nil => simp [mapInsert, keysSorted]
  | cons e rest ih =>
    obtain ⟨k', v'⟩ := e
    simp only [keysSorted, List.pairwise_cons] at hs
    obtain ⟨hhead, htail⟩ := hs
    simp only [mapInsert]
    by_cases hlt : posLt k k'
    · rw [if_pos hlt]
      simp only [keysSorted, List.pairwise_cons]
      refine ⟨?_, hhead, htail⟩
      rintro ⟨a, b⟩ hab
      rcases List.mem_cons.mp hab with h | h
      · have : a = k' := by simpa using congrArg Prod.fst h
        simpa [this] using hlt
      · exact posLt_trans hlt (by simpa using hhead (a, b) h)
    · rw [if_neg hlt]
      by_cases hk : k = k'
      · rw [if_pos hk]; subst hk
        simp only [keysSorted, List.pairwise_cons]
        exact ⟨hhead, htail⟩
      · rw [if_neg hk]
        simp only [keysSorted, List.pairwise_cons]
        constructor
        · rintro ⟨a, b⟩ hab
          rcases mem_of_mem_mapInsert hab with h | h
          · have ha : a = k := by simpa using congrArg Prod.fst h
            rcases posLt_cases k k' with h' | h' | h'
            · exact absurd h' hlt
            · exact absurd h' hk
            · simpa [ha] using h'
          · exact hhead (a, b) h
        · exact ih htail

theorem mem_setInsert (a : List GridPosition) (k q : GridPosition) :
    q ∈ setInsert a k ↔ q = k ∨ q ∈ a := by
  induction a with
  | nil => simp [setInsert]
  | cons h t ih =>
    by_cases hlt : posLt k h
    · simp [setInsert, if_pos hlt]
    · by_cases hk : k = h
      · subst hk
        simp only [setInsert, if_neg hlt, if_pos rfl]
        constructor
        · intro hq; exact Or.inr hq
        · rintro (rfl | hq)
          · exact List.mem_cons_self _ _
          · exact hq
      · simp only [setInsert, if_neg hlt, if_neg hk, List.mem_cons, ih]
        tauto

theorem sorted_setInsert {a : List GridPosition} (k : GridPosition)
    (hs : a.Pairwise posLt) : (setInsert a k).Pairwise posLt := by
  induction a with
  | nil => simp [setInsert]
  | cons h t ih =>
    rw [List.pairwise_cons] at hs
    obtain ⟨hhead, htail⟩ := hs
    by_cases hlt : posLt k h
    · simp only [setInsert, if_pos hlt]
      refine List.pairwise_cons.mpr ⟨?_, List.pairwise_cons.mpr ⟨hhead, htail⟩⟩
      intro b hb
      rcases List.mem_cons.mp hb with rfl | hb
      · exact hlt
      · exact posLt_trans hlt (hhead b hb)
    · by_cases hk : k = h
      · subst hk
        simp only [setInsert, if_neg hlt, if_pos rfl]
        exact List.pairwise_cons.mpr ⟨hhead, htail⟩
      · simp only [setInsert, if_neg hlt, if_neg hk]
        refine List.pairwise_cons.mpr ⟨?_, ih htail⟩
        intro b hb
        rcases (mem_setInsert t k b).mp hb with hbk | hb
        · rw [hbk]
          rcases posLt_cases k h with h' | h' | h'
          · exact absurd h' hlt
          · exact absurd h' hk
          · exact h'
        · exact hhead b hb

theorem setRemove_sublist (a : List GridPosition) (k : GridPosition) :
    (setRemove a k).Sublist a := by
  induction a with
  | nil => simp [setRemove]
  | cons h t ih =>
    by_cases hk : k = h
    · simp only [setRemove, if_pos hk]
      exact (List.sublist_cons_self h t)
    · simp only [setRemove, if_neg hk]
      exact List.Sublist.cons₂ h ih

theorem sorted_setRemove {a : List GridPosition} (k : GridPosition)
    (hs : a.Pairwise posLt) : (setRemove a k).Pairwise posLt :=
  List.Pairwise.sublist (setRemove_sublist a k) hs

theorem mem_setRemove {a : List GridPosition} (hs : a.Pairwise posLt) (k q : GridPosition) :
    q ∈ setRemove a k ↔ q ∈ a ∧ q ≠ k := by
  induction a with
  | nil => simp [setRemove]
  | cons h t ih =>
    rw [List.pairwise_cons] at hs
    obtain ⟨hhead, htail⟩ := hs
    by_cases hk : k = h
    · subst hk
      simp only [setRemove, if_pos rfl, List.mem_cons]
      constructor
      · intro hq
        refine ⟨Or.inr hq, ?_⟩
        rintro rfl
        exact posLt_irrefl q (hhead q hq)
      · rintro ⟨rfl | hq, hne⟩
        · exact absurd rfl hne
        · exact hq
    · simp only [setRemove, if_neg hk, List.mem_cons, ih htail]
      constructor
      · rintro (rfl | ⟨hq, hne⟩)
        · exact ⟨Or.inl rfl, fun hh => hk (by rw [hh])⟩
        · exact ⟨Or.inr hq, hne⟩
      · rintro ⟨rfl | hq, hne⟩
        · exact Or.inl rfl
        · exact Or.inr ⟨hq, hne⟩

/-! ### Changeset bookkeeping -/

theorem foldl_preserve {β γ : Type} (P : β → Prop) (step : β → γ → β)
    (hstep : ∀ b c, P b → P (step b c)) :
    ∀ (l : List γ) (b : β), P b → P (l.foldl step b)
  | [], _, hb => hb
  | c :: rest, b, hb => foldl_preserve P step hstep rest (step b c) (hstep b c hb)

theorem lastWrite_eq_none_iff (cs : List (GridPosition × TreeState)) (pos : GridPosition) :
    lastWrite cs pos = none ↔ pos ∉ cs.map Prod.fst := by
  induction cs with
  | nil => simp [lastWrite]
  | cons e rest ih =>
    obtain ⟨k, st⟩ := e
    simp only [List.map_cons, List.mem_cons]
    cases hr : lastWrite rest pos with
    | some s =>
      simp only [lastWrite, hr]
      have hmem : pos ∈ List.map Prod.fst rest := by
        by_contra hc
        rw [ih.mpr hc] at hr
        cases hr
      simp [hmem]
    | none =>
      simp only [lastWrite, hr]
      have hnr : pos ∉ List.map Prod.fst rest := ih.mp hr
      by_cases hk : k = pos
      · simp [hk]
      · have hpk : ¬ pos = k := fun hh => hk hh.symm
        simp [hk, hpk, hnr]

theorem lastWrite_mem {cs : List (GridPosition × TreeState)} {pos : GridPosition}
    {s : TreeState} (h : lastWrite cs pos = some s) : (pos, s) ∈ cs := by
  induction cs with
  | nil => simp [lastWrite] at h
  | cons e rest ih =>
    obtain ⟨k, st⟩ := e
    cases hr : lastWrite rest pos with
    | some s' =>
      simp only [lastWrite, hr] at h
      obtain rfl := Option.some.inj h
      exact List.mem_cons_of_mem _ (ih hr)
    | none =>
      simp only [lastWrite, hr] at h
      by_cases hk : k = pos
      · rw [if_pos hk] at h
        obtain rfl := Option.some.inj h
        subst hk
        exact List.mem_cons_self _ _
      · rw [if_neg hk] at h
        cases h

theorem lastWrite_append (cs₁ cs₂ : List (GridPosition × TreeState)) (pos : GridPosition) :
    lastWrite (cs₁ ++ cs₂) pos =
      match lastWrite cs₂ pos with
      | some s => some s
      | none => lastWrite cs₁ pos := by
  induction cs₁ with
  | nil =>
    simp only [List.nil_append]
    cases h : lastWrite cs₂ pos <;> simp [lastWrite, h]
  | cons e rest ih =>
    simp only [List.cons_append]
    rw [show lastWrite (e :: (rest ++ cs₂)) pos =
          match lastWrite (rest ++ cs₂) pos with
          | some s => some s
          | none => if e.1 = pos then some e.2 else none from rfl]
    rw [ih]
    rw [show lastWrite (e :: rest) pos =
          match lastWrite rest pos with
          | some s => some s
          | none => if e.1 = pos then some e.2 else none from rfl]
    cases h : lastWrite cs₂ pos <;> cases h2 : lastWrite rest pos <;> simp

theorem lastAct_eq_bind {cs : List (GridPosition × TreeState)}
    (h : (cs.map Prod.fst).Nodup) (pos : GridPosition) :
    lastAct cs pos = (lastWrite cs pos).bind actOf := by
  induction cs with
  | nil => simp [lastAct, lastWrite]
  | cons e rest ih =>
    obtain ⟨k, st⟩ := e
    simp only [List.map_cons, List.nodup_cons] at h
    obtain ⟨hk, hrest⟩ := h
    have ihr := ih hrest
    cases hr : lastWrite rest pos with
    | some s =>
      rw [hr] at ihr
      cases ha : lastAct rest pos with
      | some b => simp only [lastAct, lastWrite, ha, hr]; simpa [ha] using ihr
      | none =>
        -- the last write is not an active-set effect
        simp only [lastAct, lastWrite, ha, hr]
        rw [ha] at ihr
        have hkpos : ¬ k = pos := by
          intro hh
          subst hh
          exact hk (by simpa using List.mem_map_of_mem Prod.fst (lastWrite_mem hr))
        rw [if_neg hkpos]
        exact ihr
    | none =>
      have ha : lastAct rest pos = none := by
        rw [ihr, hr]; rfl
      simp only [lastAct, lastWrite, ha, hr]
      by_cases hkpos : k = pos
      · simp [hkpos]
      · simp [hkpos]

theorem commit_char (cs : List (GridPosition × TreeState)) :
    ∀ (t : List (GridPosition × TreeState)) (a : List GridPosition),
      a.Pairwise posLt → ∀ pos,
      (mapLookup (cs.foldl commitStep (t, a)).1 pos =
        match lastWrite cs pos with
        | some s => some s
        | none => mapLookup t pos) ∧
      (pos ∈ (cs.foldl commitStep (t, a)).2 ↔
        match lastAct cs pos with
        | some b => b = true
        | none => pos ∈ a) := by
  induction cs with
  | nil =>
    intro t a _ pos
    simp [lastWrite, lastAct]
  | cons e rest ih =>
    intro t a ha pos
    obtain ⟨k, st⟩ := e
    have hstep : commitStep (t, a) (k, st) =
        (mapInsert t k st,
          match st with
          | TreeState.Catching => setInsert a k
          | TreeState.Burnt => setRemove a k
          | _ => a) := by
      cases st <;> rfl
    rw [List.foldl_cons, hstep]
    have ha' : (match st with
        | TreeState.Catching => setInsert a k
        | TreeState.Burnt => setRemove a k
        | _ => a).Pairwise posLt := by
      cases st
      · exact ha
      · exact sorted_setInsert k ha
      · exact ha
      · exact sorted_setRemove k ha
    obtain ⟨ih1, ih2⟩ := ih (mapInsert t k st) _ ha' pos
    constructor
    · rw [ih1]
      cases hr : lastWrite rest pos with
      | some s => simp [lastWrite, hr]
      | none =>
        simp only [lastWrite, hr]
        rw [mapLookup_mapInsert]
        by_cases hk : k = pos
        · subst hk; simp
        · rw [if_neg (fun hh => hk hh.symm), if_neg hk]
    · rw [ih2]
      cases hr : lastAct rest pos with
      | some b => simp [lastAct, hr]
      | none =>
        simp only [lastAct, hr]
        by_cases hk : k = pos
        · subst hk
          cases st <;>
            simp [actOf, mem_setInsert, mem_setRemove ha, posLt_irrefl]
        · rw [if_neg hk]
          have hpk : ¬ pos = k := fun hh => hk hh.symm
          cases st <;>
            simp [mem_setInsert, mem_setRemove ha, hpk, hk]

theorem commitStep_eq (t : List (GridPosition × TreeState)) (a : List GridPosition)
    (k : GridPosition) (st : TreeState) :
    commitStep (t, a) (k, st) =
      (mapInsert t k st,
        match st with
        | TreeState.Catching => setInsert a k
        | TreeState.Burnt => setRemove a k
        | _ => a) := by
  cases st <;> rfl

theorem commit_trees_sorted (cs : List (GridPosition × TreeState)) :
    ∀ (t : List (GridPosition × TreeState)) (a : List GridPosition),
      keysSorted t → keysSorted ((cs.foldl commitStep (t, a)).1) := by
  induction cs with
  | nil => intro t a ht; exact ht
  | cons e rest ih =>
    intro t a ht
    obtain ⟨k, st⟩ := e
    rw [List.foldl_cons, commitStep_eq]
    exact ih _ _ (keysSorted_mapInsert k st ht)

theorem commit_active_sorted (cs : List (GridPosition × TreeState)) :
    ∀ (t : List (GridPosition × TreeState)) (a : List GridPosition),
      a.Pairwise posLt → ((cs.foldl commitStep (t, a)).2).Pairwise posLt := by
  induction cs with
  | nil => intro t a ha; exact ha
  | cons e rest ih =>
    intro t a ha
    obtain ⟨k, st⟩ := e
    rw [List.foldl_cons, commitStep_eq]
    refine ih _ _ ?_
    cases st
    · exact ha
    · exact sorted_setInsert k ha
    · exact ha
    · exact sorted_setRemove k ha

/-! ### Pass 1: splitting the fold into accumulator and changeset parts -/

theorem pass1Step_eq (trees : List (GridPosition × TreeState)) (p : ℚ) (d tk : Nat)
    (mb : List (GridPosition × ℚ)) (cs : List (GridPosition × TreeState))
    (pos : GridPosition) :
    pass1Step trees p d tk (mb, cs) pos = (mbOf trees p mb pos, cs ++ entryOf trees d tk pos) := by
  cases h : mapLookup trees pos with
  | none => simp [pass1Step, mbOf, entryOf, h]
  | some st =>
    cases st with
    | Uncaught => simp [pass1Step, mbOf, entryOf, h]
    | Catching => simp [pass1Step, mbOf, entryOf, h]
    | Burnt => simp [pass1Step, mbOf, entryOf, h]
    | Burning u =>
      simp only [pass1Step, mbOf, entryOf, h]
      by_cases hu : tk ≥ u <;> simp [hu]

theorem pass1_split (trees : List (GridPosition × TreeState)) (p : ℚ) (d tk : Nat) :
    ∀ (l : List GridPosition) (mb : List (GridPosition × ℚ))
      (cs : List (GridPosition × TreeState)),
      l.foldl (pass1Step trees p d tk) (mb, cs) =
        (l.foldl (mbOf trees p) mb, cs ++ pass1Changes trees d tk l) := by
  intro l
  induction l with
  | nil => intro mb cs; simp [pass1Changes]
  | cons pos rest ih =>
    intro mb cs
    rw [List.foldl_cons, pass1Step_eq, ih, List.foldl_cons]
    simp [pass1Changes, List.append_assoc]

theorem propagate_eq (f : Forest) :
    f.propagate =
      (f.active.foldl (mbOf f.trees f.suceptibility) f.may_burn,
       f.changeset ++ pass1Changes f.trees f.burn_duration f.tickCount f.active) := by
  rw [Forest.propagate, pass1_split]

theorem entryOf_cases {trees : List (GridPosition × TreeState)} {d tk : Nat}
    {pos : GridPosition} {e : GridPosition × TreeState}
    (h : e ∈ entryOf trees d tk pos) :
    e.1 = pos ∧
      ((mapLookup trees pos = some TreeState.Catching ∧
          e.2 = TreeState.Burning (tk + d)) ∨
       (∃ u, mapLookup trees pos = some (TreeState.Burning u) ∧ tk ≥ u ∧
          e.2 = TreeState.Burnt)) := by
  cases hl : mapLookup trees pos with
  | none => simp [entryOf, hl] at h
  | some st =>
    cases st with
    | Uncaught => simp [entryOf, hl] at h
    | Burnt => simp [entryOf, hl] at h
    | Catching =>
      simp only [entryOf, hl, List.mem_singleton] at h
      subst h
      exact ⟨rfl, Or.inl ⟨rfl, rfl⟩⟩
    | Burning u =>
      simp only [entryOf, hl] at h
      by_cases hu : tk ≥ u
      · rw [if_pos hu] at h
        rcases List.mem_singleton.mp h with rfl
        exact ⟨rfl, Or.inr ⟨u, rfl, hu, rfl⟩⟩
      · rw [if_neg hu] at h
        simp at h

theorem entryOf_key_active {trees : List (GridPosition × TreeState)} {d tk : Nat}
    {pos : GridPosition} {e : GridPosition × TreeState}
    (h : e ∈ entryOf trees d tk pos) : isActive (mapLookup trees pos) = true := by
  rcases (entryOf_cases h).2 with ⟨hl, _⟩ | ⟨u, hl, _, _⟩ <;> simp [isActive, hl]

theorem pass1Changes_mem {trees : List (GridPosition × TreeState)} {d tk : Nat} :
    ∀ {l : List GridPosition} {e : GridPosition × TreeState},
      e ∈ pass1Changes trees d tk l →
      e.1 ∈ l ∧ isActive (mapLookup trees e.1) = true := by
  intro l
  induction l with
  | nil => intro e h; simp [pass1Changes] at h
  | cons pos rest ih =>
    intro e h
    rcases List.mem_append.mp h with h1 | h1
    · obtain ⟨hk, _⟩ := entryOf_cases h1
      exact ⟨by simp [hk], hk ▸ entryOf_key_active h1⟩
    · obtain ⟨hk, hact⟩ := ih h1
      exact ⟨List.mem_cons_of_mem _ hk, hact⟩

theorem pass1Changes_keys_nodup {trees : List (GridPosition × TreeState)} {d tk : Nat} :
    ∀ {l : List GridPosition}, l.Nodup →
      ((pass1Changes trees d tk l).map Prod.fst).Nodup := by
  intro l
  induction l with
  | nil => intro _; simp [pass1Changes]
  | cons pos rest ih =>
    intro hnd
    rw [List.nodup_cons] at hnd
    obtain ⟨hpos, hrest⟩ := hnd
    show ((entryOf trees d tk pos ++ pass1Changes trees d tk rest).map Prod.fst).Nodup
    rw [List.map_append]
    refine List.Nodup.append ?_ (ih hrest) ?_
    · cases hl : mapLookup trees pos with
      | none => simp [entryOf, hl]
      | some st =>
        cases st with
        | Uncaught => simp [entryOf, hl]
        | Catching => simp [entryOf, hl]
        | Burnt => simp [entryOf, hl]
        | Burning u =>
          simp only [entryOf, hl]
          by_cases hu : tk ≥ u <;> simp [hu]
    · intro q hq hq2
      rcases List.mem_map.mp hq with ⟨e, he, rfl⟩
      rcases List.mem_map.mp hq2 with ⟨e2, he2, heq⟩
      have h1 : e.1 = pos := (entryOf_cases he).1
      have h2 : e2.1 ∈ rest := (pass1Changes_mem he2).1
      rw [heq, h1] at h2
      exact hpos h2

theorem lastWrite_pass1Changes_not_mem {trees : List (GridPosition × TreeState)}
    {d tk : Nat} {l : List GridPosition} {pos : GridPosition} (h : pos ∉ l) :
    lastWrite (pass1Changes trees d tk l) pos = none := by
  rw [lastWrite_eq_none_iff]
  intro hc
  rcases List.mem_map.mp hc with ⟨e, he, rfl⟩
  exact h (pass1Changes_mem he).1

theorem lastWrite_pass1Changes_mem {trees : List (GridPosition × TreeState)}
    {d tk : Nat} :
    ∀ {l : List GridPosition} {pos : GridPosition}, l.Nodup → pos ∈ l →
      lastWrite (pass1Changes trees d tk l) pos =
        lastWrite (entryOf trees d tk pos) pos := by
  intro l
  induction l with
  | nil => intro pos _ h; simp at h
  | cons q rest ih =>
    intro pos hnd hmem
    rw [List.nodup_cons] at hnd
    obtain ⟨hq, hrest⟩ := hnd
    show lastWrite (entryOf trees d tk q ++ pass1Changes trees d tk rest) pos = _
    rw [lastWrite_append]
    rcases List.mem_cons.mp hmem with rfl | hmem2
    · rw [lastWrite_pass1Changes_not_mem hq]
    · have hne : pos ≠ q := fun hh => hq (hh ▸ hmem2)
      rw [ih hrest hmem2]
      cases he : lastWrite (pass1Changes trees d tk rest) pos with
      | some s => rw [← ih hrest hmem2, he]
      | none =>
        rw [← ih hrest hmem2, he]
        have : lastWrite (entryOf trees d tk q) pos = none := by
          rw [lastWrite_eq_none_iff]
          intro hc
          rcases List.mem_map.mp hc with ⟨e, heq, rfl⟩
          exact hne ((entryOf_cases heq).1)
        rw [this]

/-! ### Pass 1: the accumulator values -/

theorem mapLookup_mapMulEntry (m : List (GridPosition × ℚ)) (k q : GridPosition)
    (factor : ℚ) :
    mapLookup (mapMulEntry m k factor) q =
      if q = k then some (((mapLookup m k).getD 1) * factor) else mapLookup m q := by
  rw [mapMulEntry, mapLookup_mapInsert]

theorem nbrFold_lookup (trees : List (GridPosition × TreeState)) (p : ℚ) :
    ∀ (ns : List GridPosition) (m : List (GridPosition × ℚ)) (q : GridPosition),
      mapLookup (nbrFold trees p ns m) q =
        if ns.countP (uncaughtHit trees q) = 0 then mapLookup m q
        else some (((mapLookup m q).getD 1) * (1 - p) ^ (ns.countP (uncaughtHit trees q))) := by
  intro ns
  induction ns with
  | nil => intro m q; simp [nbrFold]
  | cons n rest ih =>
    intro m q
    have hstep : nbrFold trees p (n :: rest) m =
        nbrFold trees p rest
          (match mapLookup trees n with
           | some TreeState.Uncaught => mapMulEntry m n (1 - p)
           | _ => m) := rfl
    rw [hstep, List.countP_cons]
    by_cases hu : mapLookup trees n = some TreeState.Uncaught
    · by_cases hq : n = q
      · subst hq
        have hhit : uncaughtHit trees n n = true := by simp [uncaughtHit, hu]
        rw [hu]
        rw [ih]
        have hlk : mapLookup (mapMulEntry m n (1 - p)) n =
            some (((mapLookup m n).getD 1) * (1 - p)) := by
          rw [mapLookup_mapMulEntry, if_pos rfl]
        by_cases hc : rest.countP (uncaughtHit trees n) = 0
        · rw [if_pos hc, hc, hlk]
          simp [hhit]
        · rw [if_neg hc, hlk]
          have hne : ¬ (rest.countP (uncaughtHit trees n) + if uncaughtHit trees n n = true then 1 else 0) = 0 := by
            simp [hhit]
          rw [if_neg hne]
          congr 1
          simp only [Option.getD_some, hhit, if_pos]
          rw [pow_succ]
          ring
      · have hhit : uncaughtHit trees q n = false := by simp [uncaughtHit, hq]
        rw [hu, ih]
        have hlk : mapLookup (mapMulEntry m n (1 - p)) q = mapLookup m q := by
          rw [mapLookup_mapMulEntry, if_neg (fun hh => hq hh.symm)]
        rw [hlk, hhit]
        simp
    · have hhit : uncaughtHit trees q n = false := by
        simp only [uncaughtHit, Bool.and_eq_false_imp]
        intro _
        simpa using hu
      have hm : (match mapLookup trees n with
           | some TreeState.Uncaught => mapMulEntry m n (1 - p)
           | _ => m) = m := by
        cases hl : mapLookup trees n with
        | none => rfl
        | some st => cases st <;> first | rfl | exact absurd hl hu
      rw [hm, ih, hhit]
      simp

theorem mayBurn_fold_lookup (trees : List (GridPosition × TreeState)) (p : ℚ) :
    ∀ (l : List GridPosition) (m : List (GridPosition × ℚ)) (q : GridPosition),
      mapLookup (l.foldl (mbOf trees p) m) q =
        if mbCount trees l q = 0 then mapLookup m q
        else some (((mapLookup m q).getD 1) * (1 - p) ^ (mbCount trees l q)) := by
  intro l
  induction l with
  | nil => intro m q; simp [mbCount]
  | cons pos rest ih =>
    intro m q
    rw [List.foldl_cons]
    have hsum : mbCount trees (pos :: rest) q =
        (match mapLookup trees pos with
         | some (TreeState.Burning _) => pos.neighbors.countP (uncaughtHit trees q)
         | _ => 0) + mbCount trees rest q := by
      simp [mbCount]
    cases hl : mapLookup trees pos with
    | none =>
      rw [hsum, hl]
      simpa [mbOf, hl] using ih m q
    | some st =>
      cases st with
      | Uncaught => rw [hsum, hl]; simpa [mbOf, hl] using ih m q
      | Catching => rw [hsum, hl]; simpa [mbOf, hl] using ih m q
      | Burnt => rw [hsum, hl]; simpa [mbOf, hl] using ih m q
      | Burning u =>
        rw [hsum, hl]
        have hm : mbOf trees p m pos = nbrFold trees p pos.neighbors m := by
          simp [mbOf, hl]
        rw [hm, ih, nbrFold_lookup]
        set ch := pos.neighbors.countP (uncaughtHit trees q) with hch
        set cr := mbCount trees rest q with hcr
        by_cases hch0 : ch = 0
        · by_cases hcr0 : cr = 0 <;> simp [hch0, hcr0]
        · by_cases hcr0 : cr = 0
          · simp only [hcr0, if_pos rfl, if_neg hch0]
            have : ¬ ch + 0 = 0 := by omega
            rw [if_neg this]
            norm_num
          · rw [if_neg hcr0, if_neg hch0]
            have : ¬ ch + cr = 0 := by omega
            rw [if_neg this]
            simp only [Option.getD_some]
            congr 1
            rw [pow_add]
            ring

theorem mbCount_ne_zero_uncaught {trees : List (GridPosition × TreeState)}
    {l : List GridPosition} {q : GridPosition} (h : mbCount trees l q ≠ 0) :
    mapLookup trees q = some TreeState.Uncaught := by
  induction l with
  | nil => simp [mbCount] at h
  | cons pos rest ih =>
    have hsum : mbCount trees (pos :: rest) q =
        (match mapLookup trees pos with
         | some (TreeState.Burning _) => pos.neighbors.countP (uncaughtHit trees q)
         | _ => 0) + mbCount trees rest q := by
      simp [mbCount]
    rw [hsum] at h
    by_cases hr : mbCount trees rest q = 0
    · have hhd : (match mapLookup trees pos with
         | some (TreeState.Burning _) => pos.neighbors.countP (uncaughtHit trees q)
         | _ => 0) ≠ 0 := by omega
      have hcount : pos.neighbors.countP (uncaughtHit trees q) ≠ 0 := by
        cases hl : mapLookup trees pos with
        | none => rw [hl] at hhd; simp at hhd
        | some st =>
          cases st <;> rw [hl] at hhd <;> first | exact hhd | (simp at hhd)
      have hpos : 0 < pos.neighbors.countP (uncaughtHit trees q) :=
        Nat.pos_of_ne_zero hcount
      rcases List.countP_pos_iff.mp hpos with ⟨n, _, hn⟩
      simp only [uncaughtHit, Bool.and_eq_true, decide_eq_true_eq] at hn
      obtain ⟨rfl, hn2⟩ := hn
      exact hn2
    · exact ih hr

theorem keysSorted_nbrFold (trees : List (GridPosition × TreeState)) (p : ℚ)
    (ns : List GridPosition) {m : List (GridPosition × ℚ)} (hs : keysSorted m) :
    keysSorted (nbrFold trees p ns m) := by
  refine foldl_preserve keysSorted _ ?_ ns m hs
  intro m' n hm'
  cases hl : mapLookup trees n with
  | none => simpa [hl] using hm'
  | some st =>
    cases st <;> simp only [hl] <;>
      first
        | exact hm'
        | exact keysSorted_mapInsert _ _ hm'

theorem keysSorted_mayBurn_fold (trees : List (GridPosition × TreeState)) (p : ℚ)
    (l : List GridPosition) {m : List (GridPosition × ℚ)} (hs : keysSorted m) :
    keysSorted (l.foldl (mbOf trees p) m) := by
  refine foldl_preserve keysSorted _ ?_ l m hs
  intro m' pos hm'
  cases hl : mapLookup trees pos with
  | none => simpa [mbOf, hl] using hm'
  | some st =>
    cases st <;> simp only [mbOf, hl] <;>
      first
        | exact hm'
        | exact keysSorted_nbrFold trees p _ hm'

/-! ### Pass 2 -/

theorem pass2_eq :
    ∀ (mb : List (GridPosition × ℚ)) (rng : StdRng)
      (cs : List (GridPosition × TreeState)),
      mb.foldl pass2Step (rng, cs) =
        (⟨rng.draws, rng.idx + mb.length⟩, cs ++ pass2List rng.draws rng.idx mb) := by
  intro mb
  induction mb with
  | nil => intro rng cs; simp [pass2List]
  | cons e rest ih =>
    intro rng cs
    rw [List.foldl_cons]
    by_cases hlt : rng.draws rng.idx < e.2
    · have hstep : pass2Step (rng, cs) e = (⟨rng.draws, rng.idx + 1⟩, cs) := by
        simp [pass2Step, StdRng.genBool, hlt]
      rw [hstep, ih]
      have hidx : rng.idx + 1 + rest.length = rng.idx + (rest.length + 1) := by omega
      simp [pass2List, hlt, hidx]
    · have hstep : pass2Step (rng, cs) e =
          (⟨rng.draws, rng.idx + 1⟩, cs ++ [(e.1, TreeState.Catching)]) := by
        simp [pass2Step, StdRng.genBool, hlt]
      rw [hstep, ih]
      have hidx : rng.idx + 1 + rest.length = rng.idx + (rest.length + 1) := by omega
      simp [pass2List, hlt, hidx]

theorem mem_pass2List {d : Nat → ℚ} :
    ∀ {i : Nat} {mb : List (GridPosition × ℚ)} {e : GridPosition × TreeState},
      e ∈ pass2List d i mb →
      e.2 = TreeState.Catching ∧ e.1 ∈ mb.map Prod.fst := by
  intro i mb
  induction mb generalizing i with
  | nil => intro e h; simp [pass2List] at h
  | cons hd rest ih =>
    intro e h
    simp only [pass2List] at h
    rcases List.mem_append.mp h with h1 | h1
    · by_cases hlt : d i < hd.2
      · rw [if_pos hlt] at h1; simp at h1
      · rw [if_neg hlt] at h1
        rcases List.mem_singleton.mp h1 with rfl
        exact ⟨rfl, by simp⟩
    · obtain ⟨h2, h3⟩ := ih h1
      exact ⟨h2, by simp [h3]⟩

theorem pass2List_keys_nodup {d : Nat → ℚ} :
    ∀ {i : Nat} {mb : List (GridPosition × ℚ)}, (mb.map Prod.fst).Nodup →
      ((pass2List d i mb).map Prod.fst).Nodup := by
  intro i mb
  induction mb generalizing i with
  | nil => intro _; simp [pass2List]
  | cons hd rest ih =>
    intro hnd
    rw [List.map_cons, List.nodup_cons] at hnd
    obtain ⟨hhd, hrest⟩ := hnd
    simp only [pass2List, List.map_append]
    refine List.Nodup.append ?_ (ih hrest) ?_
    · by_cases hlt : d i < hd.2 <;> simp [hlt]
    · intro q hq hq2
      rcases List.mem_map.mp hq2 with ⟨e, he, rfl⟩
      have h3 : e.1 ∈ rest.map Prod.fst := (mem_pass2List he).2
      by_cases hlt : d i < hd.2
      · rw [if_pos hlt] at hq; simp at hq
      · rw [if_neg hlt] at hq
        simp only [List.map_singleton, List.mem_singleton] at hq
        rw [hq] at h3
        exact hhd h3

theorem lastWrite_pass2List_not_mem {d : Nat → ℚ} {i : Nat}
    {mb : List (GridPosition × ℚ)} {q : GridPosition} (h : q ∉ mb.map Prod.fst) :
    lastWrite (pass2List d i mb) q = none := by
  rw [lastWrite_eq_none_iff]
  intro hc
  rcases List.mem_map.mp hc with ⟨e, he, rfl⟩
  exact h (mem_pass2List he).2

theorem lastWrite_pass2List_get {d : Nat → ℚ} :
    ∀ {mb : List (GridPosition × ℚ)} {i : Nat}, (mb.map Prod.fst).Nodup →
      ∀ (j : Nat) (hj : j < mb.length),
      lastWrite (pass2List d i mb) (mb.get ⟨j, hj⟩).1 =
        if d (i + j) < (mb.get ⟨j, hj⟩).2 then none else some TreeState.Catching := by
  intro mb
  induction mb with
  | nil => intro i _ j hj; simp at hj
  | cons hd rest ih =>
    intro i hnd j hj
    rw [List.map_cons, List.nodup_cons] at hnd
    obtain ⟨hhd, hrest⟩ := hnd
    cases j with
    | zero =>
      simp only [List.get, pass2List]
      rw [lastWrite_append, lastWrite_pass2List_not_mem hhd]
      by_cases hlt : d i < hd.2
      · simp [lastWrite, hlt]
      · simp [lastWrite, hlt]
    | succ j' =>
      have hj' : j' < rest.length := by simpa using hj
      have hget : ((hd :: rest).get ⟨j' + 1, hj⟩) = rest.get ⟨j', hj'⟩ := rfl
      rw [hget]
      simp only [pass2List]
      rw [lastWrite_append]
      have hihr := ih hrest (j := j') hj' (i := i + 1)
      have hadd : i + 1 + j' = i + (j' + 1) := by omega
      rw [hadd] at hihr
      rw [hihr]
      by_cases hlt : d (i + (j' + 1)) < (rest.get ⟨j', hj'⟩).2
      · rw [if_pos hlt]
        have hmem : (rest.get ⟨j', hj'⟩).1 ∈ rest.map Prod.fst :=
          List.mem_map_of_mem Prod.fst (List.get_mem rest j' hj')
        have hne : ¬ hd.1 = (rest.get ⟨j', hj'⟩).1 := by
          intro hh
          rw [hh] at hhd
          exact hhd hmem
        by_cases hlt2 : d i < hd.2
        · simp [lastWrite, hlt2]
        · simp [lastWrite, hlt2]
          simp only [List.get_eq_getElem] at hne
          exact hne
      · rw [if_neg hlt]

/-! ### The assembled tick -/

theorem tick_eq (f : Forest) (hmb : f.may_burn = []) (hcs : f.changeset = []) :
    f.tick = { f with
      rng := ⟨f.rng.draws, f.rng.idx + f.tickMayBurn.length⟩
      trees := (f.tickChangeset.foldl commitStep (f.trees, f.active)).1
      active := (f.tickChangeset.foldl commitStep (f.trees, f.active)).2
      tickCount := f.tickCount + 1
      may_burn := []
      changeset := [] } := by
  have hp : f.propagate =
      (f.tickMayBurn, pass1Changes f.trees f.burn_duration f.tickCount f.active) := by
    rw [propagate_eq, hmb, hcs, Forest.tickMayBurn, List.nil_append]
  show ({ f with
      rng := (f.propagate.1.foldl pass2Step (f.rng, f.propagate.2)).1
      trees := (((f.propagate.1.foldl pass2Step (f.rng, f.propagate.2)).2).foldl
        commitStep (f.trees, f.active)).1
      active := (((f.propagate.1.foldl pass2Step (f.rng, f.propagate.2)).2).foldl
        commitStep (f.trees, f.active)).2
      tickCount := f.tickCount + 1
      may_burn := []
      changeset := [] } : Forest) = _
  rw [hp, pass2_eq, Forest.tickChangeset]

theorem tick_tickCount (f : Forest) : (f.tick).tickCount = f.tickCount + 1 := rfl

theorem keys_nodup_of_keysSorted {α : Type} {m : List (GridPosition × α)}
    (hs : keysSorted m) : (m.map Prod.fst).Nodup := by
  have hp : (m.map Prod.fst).Pairwise posLt := List.pairwise_map.mpr hs
  exact hp.nodup

theorem keysSorted_tickMayBurn (f : Forest) : keysSorted f.tickMayBurn :=
  keysSorted_mayBurn_fold _ _ _ (by simp [keysSorted])

theorem tickMayBurn_keys_uncaught (f : Forest) {q : GridPosition}
    (h : q ∈ f.tickMayBurn.map Prod.fst) :
    mapLookup f.trees q = some TreeState.Uncaught := by
  obtain ⟨v, hv⟩ := mapLookup_isSome_of_mem_keys h
  rw [Forest.tickMayBurn, mayBurn_fold_lookup] at hv
  by_cases hc : mbCount f.trees f.active q = 0
  · rw [if_pos hc] at hv
    simp [mapLookup] at hv
  · exact mbCount_ne_zero_uncaught hc

theorem tickChangeset_keys_nodup (f : Forest) (hI : Inv f) :
    ((f.tickChangeset).map Prod.fst).Nodup := by
  rw [Forest.tickChangeset, List.map_append]
  refine List.Nodup.append ?_ ?_ ?_
  · exact pass1Changes_keys_nodup hI.active_sorted.nodup
  · exact pass2List_keys_nodup (keys_nodup_of_keysSorted (keysSorted_tickMayBurn f))
  · intro q hq hq2
    rcases List.mem_map.mp hq with ⟨e, he, rfl⟩
    have h1 : isActive (mapLookup f.trees e.1) = true := (pass1Changes_mem he).2
    rcases List.mem_map.mp hq2 with ⟨e2, he2, heq⟩
    have h2 := tickMayBurn_keys_uncaught f ((mem_pass2List he2).2)
    rw [heq] at h2
    rw [h2] at h1
    simp [isActive] at h1

theorem lastWrite_tickChangeset (f : Forest) (hI : Inv f) (pos : GridPosition) :
    lastWrite f.tickChangeset pos =
      match mapLookup f.trees pos with
      | some TreeState.Catching => some (TreeState.Burning (f.tickCount + f.burn_duration))
      | some (TreeState.Burning u) =>
          if f.tickCount ≥ u then some TreeState.Burnt else none
      | some TreeState.Uncaught =>
          lastWrite (pass2List f.rng.draws f.rng.idx f.tickMayBurn) pos
      | some TreeState.Burnt => none
      | none => none := by
  rw [Forest.tickChangeset, lastWrite_append]
  cases hl : mapLookup f.trees pos with
  | none =>
    have hna : pos ∉ f.active := fun hc => by
      have := (hI.consistent pos).mp hc
      rw [hl] at this
      simp [isActive] at this
    have h2 : lastWrite (pass2List f.rng.draws f.rng.idx f.tickMayBurn) pos = none := by
      refine lastWrite_pass2List_not_mem ?_
      intro hc
      rw [tickMayBurn_keys_uncaught f hc] at hl
      cases hl
    rw [h2, lastWrite_pass1Changes_not_mem hna]
  | some st =>
    cases st with
    | Uncaught =>
      have hna : pos ∉ f.active := fun hc => by
        have := (hI.consistent pos).mp hc
        rw [hl] at this
        simp [isActive] at this
      rw [lastWrite_pass1Changes_not_mem hna]
      cases hw : lastWrite (pass2List f.rng.draws f.rng.idx f.tickMayBurn) pos <;> rfl
    | Catching =>
      have hma : pos ∈ f.active := (hI.consistent pos).mpr (by simp [isActive, hl])
      have h2 : lastWrite (pass2List f.rng.draws f.rng.idx f.tickMayBurn) pos = none := by
        refine lastWrite_pass2List_not_mem ?_
        intro hc
        rw [tickMayBurn_keys_uncaught f hc] at hl
        cases hl
      rw [h2, lastWrite_pass1Changes_mem hI.active_sorted.nodup hma]
      simp [entryOf, hl, lastWrite]
    | Burning u =>
      have hma : pos ∈ f.active := (hI.consistent pos).mpr (by simp [isActive, hl])
      have h2 : lastWrite (pass2List f.rng.draws f.rng.idx f.tickMayBurn) pos = none := by
        refine lastWrite_pass2List_not_mem ?_
        intro hc
        rw [tickMayBurn_keys_uncaught f hc] at hl
        cases hl
      rw [h2, lastWrite_pass1Changes_mem hI.active_sorted.nodup hma]
      by_cases hu : f.tickCount ≥ u <;> simp [entryOf, hl, lastWrite, hu]
    | Burnt =>
      have hna : pos ∉ f.active := fun hc => by
        have := (hI.consistent pos).mp hc
        rw [hl] at this
        simp [isActive] at this
      have h2 : lastWrite (pass2List f.rng.draws f.rng.idx f.tickMayBurn) pos = none := by
        refine lastWrite_pass2List_not_mem ?_
        intro hc
        rw [tickMayBurn_keys_uncaught f hc] at hl
        cases hl
      rw [h2, lastWrite_pass1Changes_not_mem hna]

theorem tick_state_char (f : Forest) (hI : Inv f) (pos : GridPosition) :
    mapLookup (f.tick).trees pos =
      (match lastWrite f.tickChangeset pos with
       | some s => some s
       | none => mapLookup f.trees pos) ∧
    (pos ∈ (f.tick).active ↔
      (match lastAct f.tickChangeset pos with
       | some b => b = true
       | none => pos ∈ f.active)) := by
  rw [tick_eq f hI.mb_empty hI.cs_empty]
  exact commit_char f.tickChangeset f.trees f.active hI.active_sorted pos

theorem tick_trees_lookup (f : Forest) (hI : Inv f) (pos : GridPosition) :
    mapLookup (f.tick).trees pos =
      match mapLookup f.trees pos with
      | some TreeState.Catching => some (TreeState.Burning (f.tickCount + f.burn_duration))
      | some (TreeState.Burning u) =>
          if f.tickCount ≥ u then some TreeState.Burnt else some (TreeState.Burning u)
      | some TreeState.Uncaught =>
          match lastWrite (pass2List f.rng.draws f.rng.idx f.tickMayBurn) pos with
          | some s => some s
          | none => some TreeState.Uncaught
      | some TreeState.Burnt => some TreeState.Burnt
      | none => none := by
  rw [(tick_state_char f hI pos).1, lastWrite_tickChangeset f hI pos]
  cases hl : mapLookup f.trees pos with
  | none => rfl
  | some st =>
    cases st with
    | Uncaught => rfl
    | Catching => rfl
    | Burnt => rfl
    | Burning u => by_cases hu : f.tickCount ≥ u <;> simp [hu]

theorem tick_active_iff (f : Forest) (hI : Inv f) (pos : GridPosition) :
    pos ∈ (f.tick).active ↔ isActive (mapLookup (f.tick).trees pos) = true := by
  rw [(tick_state_char f hI pos).2, tick_trees_lookup f hI pos,
    lastAct_eq_bind (tickChangeset_keys_nodup f hI) pos,
    lastWrite_tickChangeset f hI pos]
  cases hl : mapLookup f.trees pos with
  | none =>
    simp only [Option.bind_none]
    have := hI.consistent pos
    rw [hl] at this
    simpa [isActive] using this
  | some st =>
    cases st with
    | Catching =>
      have hma : pos ∈ f.active := (hI.consistent pos).mpr (by simp [isActive, hl])
      simp [actOf, isActive, hma]
    | Burning u =>
      have hma : pos ∈ f.active := (hI.consistent pos).mpr (by simp [isActive, hl])
      by_cases hu : f.tickCount ≥ u <;> simp [hu, actOf, isActive, hma]
    | Burnt =>
      have := hI.consistent pos
      rw [hl] at this
      simpa [isActive] using this
    | Uncaught =>
      have hna := hI.consistent pos
      rw [hl] at hna
      cases hw : lastWrite (pass2List f.rng.draws f.rng.idx f.tickMayBurn) pos with
      | none =>
        simpa [isActive] using hna
      | some s =>
        have hs : s = TreeState.Catching := (mem_pass2List (lastWrite_mem hw)).1
        subst hs
        simp [actOf, isActive]

theorem Inv_tick {f : Forest} (hI : Inv f) : Inv (f.tick) := by
  refine ⟨?_, ?_, ?_, ?_, fun pos => tick_active_iff f hI pos⟩
  · rw [tick_eq f hI.mb_empty hI.cs_empty]
    exact commit_trees_sorted _ _ _ hI.trees_sorted
  · rw [tick_eq f hI.mb_empty hI.cs_empty]
    exact commit_active_sorted _ _ _ hI.active_sorted
  · rfl
  · rfl

/-! ### Construction facts -/

theorem placeTrees_facts (w h : Nat) (dens : ℚ) (rng : StdRng) :
    keysSorted (placeTrees w h dens rng).1 ∧
      ∀ e ∈ (placeTrees w h dens rng).1, e.2 = TreeState.Uncaught := by
  have main : ∀ (acc : List (GridPosition × TreeState) × StdRng),
      (keysSorted acc.1 ∧ ∀ e ∈ acc.1, e.2 = TreeState.Uncaught) →
      keysSorted ((List.range w).foldl (fun acc x =>
        (List.range h).foldl (fun (acc : List (GridPosition × TreeState) × StdRng) y =>
          let draw := acc.2.genBool dens
          if draw.1 then (mapInsert acc.1 (GridPosition.new x y) TreeState.Uncaught, draw.2)
          else (acc.1, draw.2)) acc) acc).1 ∧
        ∀ e ∈ ((List.range w).foldl (fun acc x =>
          (List.range h).foldl (fun (acc : List (GridPosition × TreeState) × StdRng) y =>
            let draw := acc.2.genBool dens
            if draw.1 then (mapInsert acc.1 (GridPosition.new x y) TreeState.Uncaught, draw.2)
            else (acc.1, draw.2)) acc) acc).1, e.2 = TreeState.Uncaught := by
    refine fun acc hacc => foldl_preserve
      (fun acc => keysSorted acc.1 ∧ ∀ e ∈ acc.1, e.2 = TreeState.Uncaught) _ ?_ _ acc hacc
    intro b x hb
    refine foldl_preserve
      (fun acc => keysSorted acc.1 ∧ ∀ e ∈ acc.1, e.2 = TreeState.Uncaught) _ ?_ _ b hb
    intro b' y hb'
    by_cases hd : (b'.2.genBool dens).1
    · simp only [hd, if_true]
      refine ⟨keysSorted_mapInsert _ _ hb'.1, ?_⟩
      intro e he
      rcases mem_of_mem_mapInsert he with rfl | he2
      · rfl
      · exact hb'.2 e he2
    · simpa [hd] using hb'
  exact main ([], rng) ⟨by simp [keysSorted], by simp⟩

theorem new_components (w h : Nat) (p : ℚ) (d : Nat) (dens : ℚ) (rng : StdRng) :
    (Forest.new w h p d dens rng).trees =
      mapInsert (placeTrees w h dens rng).1
        (GridPosition.new (w / 2) (w / 2)) TreeState.Catching ∧
    (Forest.new w h p d dens rng).active = [GridPosition.new (w / 2) (w / 2)] ∧
    (Forest.new w h p d dens rng).tickCount = 0 ∧
    (Forest.new w h p d dens rng).may_burn = [] ∧
    (Forest.new w h p d dens rng).changeset = [] ∧
    (Forest.new w h p d dens rng).rng = (placeTrees w h dens rng).2 := by
  exact ⟨rfl, rfl, rfl, rfl, rfl, rfl⟩

theorem Inv_new (w h : Nat) (p : ℚ) (d : Nat) (dens : ℚ) (rng : StdRng) :
    Inv (Forest.new w h p d dens rng) := by
  obtain ⟨hs, hu⟩ := placeTrees_facts w h dens rng
  obtain ⟨ht, ha, _, _, _, _⟩ := new_components w h p d dens rng
  refine ⟨?_, ?_, rfl, rfl, ?_⟩
  · rw [ht]
    exact keysSorted_mapInsert _ _ hs
  · rw [ha]
    simp
  · intro pos
    rw [ht, ha, mapLookup_mapInsert]
    by_cases hc : pos = GridPosition.new (w / 2) (w / 2)
    · simp [hc, isActive]
    · rw [if_neg hc]
      simp only [List.mem_singleton, hc, false_iff]
      cases hl : mapLookup (placeTrees w h dens rng).1 pos with
      | none => simp [isActive]
      | some v =>
        have := hu (pos, v) (mem_of_mapLookup_eq_some hl)
        simp only at this
        rw [this]
        simp [isActive]

/-! ### Reachability -/

theorem Reachable_new (w h : Nat) (p : ℚ) (d : Nat) (dens : ℚ) (rng : StdRng) :
    Reachable (Forest.new w h p d dens rng) :=
  ⟨w, h, p, d, dens, rng, 0, rfl⟩

theorem Reachable_tick {f : Forest} (h : Reachable f) : Reachable f.tick := by
  obtain ⟨w, hh, p, d, dens, rng, n, rfl⟩ := h
  exact ⟨w, hh, p, d, dens, rng, n + 1, (Function.iterate_succ_apply' _ _ _).symm⟩

theorem Reachable_inv {f : Forest} (h : Reachable f) : Inv f := by
  obtain ⟨w, hh, p, d, dens, rng, n, rfl⟩ := h
  induction n with
  | zero => exact Inv_new w hh p d dens rng
  | succ n ih =>
    rw [Function.iterate_succ_apply']
    exact Inv_tick ih

theorem iterate_tickCount (f : Forest) : ∀ n, (Forest.tick^[n] f).tickCount = f.tickCount + n := by
  intro n
  induction n with
  | zero => simp
  | succ n ih =>
    rw [Function.iterate_succ_apply', tick_tickCount, ih]
    omega

theorem Reachable_iterate {f : Forest} (h : Reachable f) (n : Nat) :
    Reachable (Forest.tick^[n] f) := by
  induction n with
  | zero => exact h
  | succ n ih =>
    rw [Function.iterate_succ_apply']
    exact Reachable_tick ih

/-! ### Sorted-list extensionality and neighborhood facts -/

theorem sorted_eq_of_mem_iff :
    ∀ {l1 l2 : List GridPosition}, l1.Pairwise posLt → l2.Pairwise posLt →
      (∀ x, x ∈ l1 ↔ x ∈ l2) → l1 = l2 := by
  intro l1
  induction l1 with
  | nil =>
    intro l2 _ _ hmem
    cases l2 with
    | nil => rfl
    | cons h2 t2 => exact absurd ((hmem h2).mpr (List.mem_cons_self _ _)) (by simp)
  | cons h1 t1 ih =>
    intro l2 hs1 hs2 hmem
    cases l2 with
    | nil => exact absurd ((hmem h1).mp (List.mem_cons_self _ _)) (by simp)
    | cons h2 t2 =>
      rw [List.pairwise_cons] at hs1 hs2
      obtain ⟨hh1, ht1⟩ := hs1
      obtain ⟨hh2, ht2⟩ := hs2
      have hheads : h1 = h2 := by
        rcases List.mem_cons.mp ((hmem h1).mp (List.mem_cons_self _ _)) with he | hm
        · exact he
        · rcases List.mem_cons.mp ((hmem h2).mpr (List.mem_cons_self _ _)) with he | hm2
          · exact he.symm
          · exact absurd (posLt_trans (hh1 h2 hm2) (hh2 h1 hm))
              (posLt_irrefl h1)
      subst hheads
      have htails : ∀ x, x ∈ t1 ↔ x ∈ t2 := by
        intro x
        constructor
        · intro hx
          rcases List.mem_cons.mp ((hmem x).mp (List.mem_cons_of_mem _ hx)) with he | hm
          · exact absurd (he ▸ hh1 x hx) (posLt_irrefl h1)
          · exact hm
        · intro hx
          rcases List.mem_cons.mp ((hmem x).mpr (List.mem_cons_of_mem _ hx)) with he | hm
          · exact absurd (he ▸ hh2 x hx) (posLt_irrefl h1)
          · exact hm
      rw [ih ht1 ht2 htails]

theorem neighbors_nodup (pos : GridPosition) : pos.neighbors.Nodup := by
  refine List.Nodup.filterMap ?_ (by decide)
  rintro ⟨dx1, dy1⟩ ⟨dx2, dy2⟩ b hb1 hb2
  simp only [Option.mem_def] at hb1 hb2
  have extract : ∀ (dx dy : Int),
      (match isizeCheckedAdd (usizeToIsize pos.x) dx,
             isizeCheckedAdd (usizeToIsize pos.y) dy with
       | some x, some y =>
           if 0 ≤ x ∧ 0 ≤ y then some (GridPosition.new x.toNat y.toNat) else none
       | _, _ => none) = some b →
      0 ≤ usizeToIsize pos.x + dx ∧ 0 ≤ usizeToIsize pos.y + dy ∧
        (b.x : Int) = usizeToIsize pos.x + dx ∧ (b.y : Int) = usizeToIsize pos.y + dy := by
    intro dx dy hb
    cases hx : isizeCheckedAdd (usizeToIsize pos.x) dx with
    | none => rw [hx] at hb; cases hy : isizeCheckedAdd (usizeToIsize pos.y) dy <;>
        rw [hy] at hb <;> cases hb
    | some x =>
      cases hy : isizeCheckedAdd (usizeToIsize pos.y) dy with
      | none => rw [hx, hy] at hb; cases hb
      | some y =>
        rw [hx, hy] at hb
        rw [show (match some x, some y with
            | some x, some y =>
                if 0 ≤ x ∧ 0 ≤ y then some (GridPosition.new x.toNat y.toNat) else none
            | _, _ => none) =
            if 0 ≤ x ∧ 0 ≤ y then some (GridPosition.new x.toNat y.toNat) else none
          from rfl] at hb
        have hxv : x = usizeToIsize pos.x + dx := by
          rw [isizeCheckedAdd] at hx
          split at hx
          · exact (Option.some.inj hx).symm
          · cases hx
        have hyv : y = usizeToIsize pos.y + dy := by
          rw [isizeCheckedAdd] at hy
          split at hy
          · exact (Option.some.inj hy).symm
          · cases hy
        by_cases hpos : 0 ≤ x ∧ 0 ≤ y
        · rw [if_pos hpos] at hb
          obtain rfl := (Option.some.inj hb).symm
          obtain ⟨hp1, hp2⟩ := hpos
          refine ⟨by omega, by omega, ?_, ?_⟩
          · show ((x.toNat : Int)) = usizeToIsize pos.x + dx
            rw [Int.toNat_of_nonneg hp1]
            exact hxv
          · show ((y.toNat : Int)) = usizeToIsize pos.y + dy
            rw [Int.toNat_of_nonneg hp2]
            exact hyv
        · rw [if_neg hpos] at hb; cases hb
  obtain ⟨hx1, hy1, hbx1, hby1⟩ := extract dx1 dy1 hb1
  obtain ⟨hx2, hy2, hbx2, hby2⟩ := extract dx2 dy2 hb2
  have : dx1 = dx2 := by omega
  have : dy1 = dy2 := by omega
  simp_all

theorem countP_eq_ite_of_nodup {ns : List GridPosition} (hnd : ns.Nodup)
    (q : GridPosition) (pred : GridPosition → Bool) (hpred : ∀ n, pred n = true ↔ n = q) :
    ns.countP pred = if q ∈ ns then 1 else 0 := by
  induction ns with
  | nil => simp
  | cons n rest ih =>
    rw [List.nodup_cons] at hnd
    obtain ⟨hn, hrest⟩ := hnd
    rw [List.countP_cons]
    by_cases hq : n = q
    · subst hq
      have h1 : pred n = true := (hpred n).mpr rfl
      have h2 : n ∉ rest := hn
      rw [ih hrest]
      simp [h1, h2]
    · have hpn : pred n = false := by
        cases hcase : pred n
        · rfl
        · exact absurd ((hpred n).mp hcase) hq
      have hqn : ¬ q = n := fun hh => hq hh.symm
      rw [ih hrest, hpn]
      simp [List.mem_cons, hqn]

/-! ### Per-state corollaries of the transition analysis -/

theorem tick_lookup_catching {f : Forest} {pos : GridPosition} (hI : Inv f)
    (hc : mapLookup f.trees pos = some TreeState.Catching) :
    mapLookup (f.tick).trees pos =
      some (TreeState.Burning (f.tickCount + f.burn_duration)) := by
  rw [tick_trees_lookup f hI pos, hc]

theorem tick_lookup_burning {f : Forest} {pos : GridPosition} {u : Nat} (hI : Inv f)
    (hb : mapLookup f.trees pos = some (TreeState.Burning u)) :
    mapLookup (f.tick).trees pos =
      if f.tickCount ≥ u then some TreeState.Burnt else some (TreeState.Burning u) := by
  rw [tick_trees_lookup f hI pos, hb]

theorem tick_lookup_burnt {f : Forest} {pos : GridPosition} (hI : Inv f)
    (hb : mapLookup f.trees pos = some TreeState.Burnt) :
    mapLookup (f.tick).trees pos = some TreeState.Burnt := by
  rw [tick_trees_lookup f hI pos, hb]

theorem tick_lookup_none {f : Forest} {pos : GridPosition} (hI : Inv f)
    (hn : mapLookup f.trees pos = none) :
    mapLookup (f.tick).trees pos = none := by
  rw [tick_trees_lookup f hI pos, hn]

theorem tick_lookup_uncaught {f : Forest} {pos : GridPosition} (hI : Inv f)
    (hu : mapLookup f.trees pos = some TreeState.Uncaught) :
    mapLookup (f.tick).trees pos = some TreeState.Uncaught ∨
      mapLookup (f.tick).trees pos = some TreeState.Catching := by
  rw [tick_trees_lookup f hI pos, hu]
  cases hw : lastWrite (pass2List f.rng.draws f.rng.idx f.tickMayBurn) pos with
  | none => exact Or.inl rfl
  | some s =>
    have hs : s = TreeState.Catching := (mem_pass2List (lastWrite_mem hw)).1
    subst hs
    exact Or.inr rfl

/-! ### Claim theorems -/

/-- C2: Determinism: two engines constructed with identical parameters
(grid width, grid height, susceptibility, burn duration, tree density) and
identically seeded random sources have bit-identical cell maps after any
equal number of `tick()` calls, and their active sets, clocks and
random-source states agree. -/
theorem determinism (w1 w2 h1 h2 d1 d2 n : Nat) (p1 p2 dens1 dens2 : ℚ)
    (rng1 rng2 : StdRng) (hw : w1 = w2) (hh : h1 = h2) (hp : p1 = p2)
    (hd : d1 = d2) (hdens : dens1 = dens2) (hrng : rng1 = rng2) :
    (Forest.tick^[n] (Forest.new w1 h1 p1 d1 dens1 rng1)).trees =
      (Forest.tick^[n] (Forest.new w2 h2 p2 d2 dens2 rng2)).trees ∧
    (Forest.tick^[n] (Forest.new w1 h1 p1 d1 dens1 rng1)).active =
      (Forest.tick^[n] (Forest.new w2 h2 p2 d2 dens2 rng2)).active ∧
    (Forest.tick^[n] (Forest.new w1 h1 p1 d1 dens1 rng1)).tickCount =
      (Forest.tick^[n] (Forest.new w2 h2 p2 d2 dens2 rng2)).tickCount ∧
    (Forest.tick^[n] (Forest.new w1 h1 p1 d1 dens1 rng1)).rng =
      (Forest.tick^[n] (Forest.new w2 h2 p2 d2 dens2 rng2)).rng := by
  subst hw hh hp hd hdens hrng
  exact ⟨rfl, rfl, rfl, rfl⟩

theorem determinism_witness :
    (1 = 1 ∧ (0 : ℚ) = 0 ∧ rng0 = rng0) ∧
    (Forest.tick^[2] (Forest.new 1 1 0 1 0 rng0)).trees =
      (Forest.tick^[2] (Forest.new 1 1 0 1 0 rng0)).trees :=
  ⟨⟨rfl, rfl, rfl⟩,
    (determinism 1 1 1 1 1 1 2 0 0 0 0 rng0 rng0 rfl rfl rfl rfl rfl rfl).1⟩

/-- C3: Monotonic state progression: for every cell, one `tick()` call
either leaves the cell's map entry unchanged or advances it strictly along
the chain Uncaught → Catching → Burning → Burnt; it never regresses, never
deletes an entry, and never creates one. -/
theorem monotonic_progression (f : Forest) (h : Reachable f) (pos : GridPosition) :
    mapLookup (f.tick).trees pos = mapLookup f.trees pos ∨
    (∃ s t, mapLookup f.trees pos = some s ∧ mapLookup (f.tick).trees pos = some t ∧
      s.rank < t.rank) := by
  have hI := Reachable_inv h
  cases hl : mapLookup f.trees pos with
  | none => exact Or.inl (tick_lookup_none hI hl)
  | some st =>
    cases st with
    | Uncaught =>
      rcases tick_lookup_uncaught hI hl with h2 | h2
      · exact Or.inl h2
      · exact Or.inr ⟨TreeState.Uncaught, TreeState.Catching, rfl, h2,
          by norm_num [TreeState.rank]⟩
    | Catching =>
      exact Or.inr ⟨TreeState.Catching, TreeState.Burning (f.tickCount + f.burn_duration),
        rfl, tick_lookup_catching hI hl, by norm_num [TreeState.rank]⟩
    | Burning u =>
      have h2 := tick_lookup_burning hI hl
      by_cases hu : f.tickCount ≥ u
      · rw [if_pos hu] at h2
        exact Or.inr ⟨TreeState.Burning u, TreeState.Burnt, rfl, h2,
          by norm_num [TreeState.rank]⟩
      · rw [if_neg hu] at h2
        exact Or.inl h2
    | Burnt => exact Or.inl (tick_lookup_burnt hI hl)

theorem monotonic_progression_witness :
    Reachable (Forest.new 1 1 0 1 0 rng0) ∧
    (mapLookup ((Forest.new 1 1 0 1 0 rng0).tick).trees (GridPosition.new 0 0) =
        mapLookup (Forest.new 1 1 0 1 0 rng0).trees (GridPosition.new 0 0) ∨
      (∃ s t, mapLookup (Forest.new 1 1 0 1 0 rng0).trees (GridPosition.new 0 0) = some s ∧
        mapLookup ((Forest.new 1 1 0 1 0 rng0).tick).trees (GridPosition.new 0 0) = some t ∧
        s.rank < t.rank)) :=
  ⟨Reachable_new 1 1 0 1 0 rng0,
    monotonic_progression _ (Reachable_new 1 1 0 1 0 rng0) (GridPosition.new 0 0)⟩

/-- C9: the `expect` on the cell-map lookup of an active coordinate is
unreachable: in every state reachable by construction followed by any
number of ticks, every active coordinate is a key of the cell map, so
`tickAborts` (the modelled abort condition of that `expect`) is false. -/
theorem active_lookup_never_fails (f : Forest) (h : Reachable f) :
    f.tickAborts = false := by
  have hI := Reachable_inv h
  rw [Forest.tickAborts]
  rw [List.any_eq_false]
  intro pos hpos
  have hact := (hI.consistent pos).mp hpos
  cases hl : mapLookup f.trees pos with
  | none => rw [hl] at hact; simp [isActive] at hact
  | some st => simp [hl]

theorem active_lookup_never_fails_witness :
    Reachable (Forest.new 1 1 0 1 0 rng0) ∧
      (Forest.new 1 1 0 1 0 rng0).tickAborts = false :=
  ⟨Reachable_new 1 1 0 1 0 rng0,
    active_lookup_never_fails _ (Reachable_new 1 1 0 1 0 rng0)⟩

/-- C1: Active-set consistency: after construction and after every tick the
active set holds exactly the `Catching`/`Burning` coordinates; moreover a
coordinate enters the active set in the tick its cell becomes `Catching`
(newly active coordinates are `Catching` afterwards), and leaves it in the
tick its `Burning` cell converts to `Burnt`. -/
theorem active_set_consistency (f : Forest) (h : Reachable f) :
    (∀ pos, pos ∈ f.active ↔ isActive (mapLookup f.trees pos) = true) ∧
    (∀ pos, pos ∉ f.active → pos ∈ (f.tick).active →
      mapLookup (f.tick).trees pos = some TreeState.Catching) ∧
    (∀ pos, pos ∈ f.active → pos ∉ (f.tick).active →
      (∃ u, mapLookup f.trees pos = some (TreeState.Burning u)) ∧
        mapLookup (f.tick).trees pos = some TreeState.Burnt) := by
  have hI := Reachable_inv h
  refine ⟨fun pos => hI.consistent pos, ?_, ?_⟩
  · intro pos hna hin
    have h2 := (tick_active_iff f hI pos).mp hin
    cases hl : mapLookup f.trees pos with
    | none =>
      rw [tick_lookup_none hI hl] at h2
      simp [isActive] at h2
    | some st =>
      cases st with
      | Catching => exact absurd ((hI.consistent pos).mpr (by simp [isActive, hl])) hna
      | Burning u => exact absurd ((hI.consistent pos).mpr (by simp [isActive, hl])) hna
      | Burnt =>
        rw [tick_lookup_burnt hI hl] at h2
        simp [isActive] at h2
      | Uncaught =>
        rcases tick_lookup_uncaught hI hl with h3 | h3
        · rw [h3] at h2
          simp [isActive] at h2
        · exact h3
  · intro pos hin hna
    have h0 := (hI.consistent pos).mp hin
    cases hl : mapLookup f.trees pos with
    | none => rw [hl] at h0; simp [isActive] at h0
    | some st =>
      cases st with
      | Uncaught => rw [hl] at h0; simp [isActive] at h0
      | Burnt => rw [hl] at h0; simp [isActive] at h0
      | Catching =>
        have h3 := tick_lookup_catching hI hl
        exact absurd ((tick_active_iff f hI pos).mpr (by rw [h3]; simp [isActive])) hna
      | Burning u =>
        have h3 := tick_lookup_burning hI hl
        by_cases hu : f.tickCount ≥ u
        · rw [if_pos hu] at h3
          exact ⟨⟨u, rfl⟩, h3⟩
        · rw [if_neg hu] at h3
          exact absurd ((tick_active_iff f hI pos).mpr (by rw [h3]; simp [isActive])) hna

theorem active_set_consistency_witness :
    Reachable (Forest.new 1 1 0 1 0 rng0) ∧
    (GridPosition.new 0 0 ∈ (Forest.new 1 1 0 1 0 rng0).active ↔
      isActive (mapLookup (Forest.new 1 1 0 1 0 rng0).trees (GridPosition.new 0 0)) = true) :=
  ⟨Reachable_new 1 1 0 1 0 rng0,
    (active_set_consistency _ (Reachable_new 1 1 0 1 0 rng0)).1 (GridPosition.new 0 0)⟩

/-- C8: `steady_state()` is true iff the active set is empty; when it is
true a tick changes nothing but the clock (cell map, active set,
accumulator and random source are untouched); the clock starts at 0 and
every tick increments it by exactly one. -/
theorem steady_state_semantics (f : Forest) (h : Reachable f) :
    (f.steady_state = true ↔ f.active = []) ∧
    (f.steady_state = true → f.tick = { f with tickCount := f.tickCount + 1 }) ∧
    ((f.tick).tickCount = f.tickCount + 1) ∧
    (∀ (w h' d : Nat) (p dens : ℚ) (rng : StdRng),
      (Forest.new w h' p d dens rng).tickCount = 0) := by
  have hI := Reachable_inv h
  refine ⟨?_, ?_, tick_tickCount f, fun _ _ _ _ _ _ => rfl⟩
  · rw [Forest.steady_state]
    simp [List.length_eq_zero]
  · intro hs
    have hae : f.active = [] := by
      simpa [Forest.steady_state, List.length_eq_zero] using hs
    have hmb : f.tickMayBurn = [] := by rw [Forest.tickMayBurn, hae]; rfl
    have hcs : f.tickChangeset = [] := by
      rw [Forest.tickChangeset, hmb, hae]
      rfl
    rw [tick_eq f hI.mb_empty hI.cs_empty, hcs, hmb]
    have hrng : (⟨f.rng.draws, f.rng.idx + ([] : List (GridPosition × ℚ)).length⟩ : StdRng)
        = f.rng := by
      show (⟨f.rng.draws, f.rng.idx + 0⟩ : StdRng) = f.rng
      rw [Nat.add_zero]
    rw [show (([] : List (GridPosition × TreeState)).foldl commitStep (f.trees, f.active))
        = (f.trees, f.active) from rfl, hrng]
    obtain ⟨gw, gh, su, bd, rng, trees, active, tc, mb, cs⟩ := f
    have hmb0 : mb = [] := hI.mb_empty
    have hcs0 : cs = [] := hI.cs_empty
    subst hmb0 hcs0
    rfl

theorem steady_state_semantics_witness :
    Reachable (Forest.tick^[2] (Forest.new 1 1 0 1 0 rng0)) ∧
    ((Forest.tick^[2] (Forest.new 1 1 0 1 0 rng0)).steady_state = true ↔
      (Forest.tick^[2] (Forest.new 1 1 0 1 0 rng0)).active = []) ∧
    (Forest.tick^[2] (Forest.new 1 1 0 1 0 rng0)).steady_state = true :=
  ⟨⟨1, 1, 0, 1, 0, rng0, 2, rfl⟩,
    (steady_state_semantics _ ⟨1, 1, 0, 1, 0, rng0, 2, rfl⟩).1,
    by decide⟩

theorem placeTrees_zero_density (w h : Nat) (rng : StdRng)
    (hdraws : ∀ i, 0 ≤ rng.draws i) : (placeTrees w h 0 rng).1 = [] := by
  rw [placeTrees]
  have main : ∀ (acc : List (GridPosition × TreeState) × StdRng),
      (acc.1 = [] ∧ acc.2.draws = rng.draws) →
      ((List.range w).foldl (fun acc x =>
        (List.range h).foldl (fun (acc : List (GridPosition × TreeState) × StdRng) y =>
          let draw := acc.2.genBool 0
          if draw.1 then (mapInsert acc.1 (GridPosition.new x y) TreeState.Uncaught, draw.2)
          else (acc.1, draw.2)) acc) acc).1 = [] ∧
      ((List.range w).foldl (fun acc x =>
        (List.range h).foldl (fun (acc : List (GridPosition × TreeState) × StdRng) y =>
          let draw := acc.2.genBool 0
          if draw.1 then (mapInsert acc.1 (GridPosition.new x y) TreeState.Uncaught, draw.2)
          else (acc.1, draw.2)) acc) acc).2.draws = rng.draws := by
    refine fun acc hacc => foldl_preserve
      (fun acc => acc.1 = [] ∧ acc.2.draws = rng.draws) _ ?_ _ acc hacc
    intro b x hb
    refine foldl_preserve
      (fun acc => acc.1 = [] ∧ acc.2.draws = rng.draws) _ ?_ _ b hb
    intro b' y hb'
    have hdraw : (b'.2.genBool 0).1 = false := by
      rw [StdRng.genBool]
      have h0 : 0 ≤ b'.2.draws b'.2.idx := by rw [hb'.2]; exact hdraws _
      simpa using not_lt_of_le h0
    simp only [hdraw, if_false]
    exact ⟨hb'.1, hb'.2⟩
  exact (main ([], rng) ⟨rfl, rfl⟩).1

/-- C10: construction always inserts the ignition cell, in `Catching`
state, at `(grid_width / 2, grid_width / 2)` — both components computed
from the grid width, also when width and height differ — unconditionally
overwriting the density-sampled placement and seeding the active set with
exactly that coordinate; with tree density 0 (and a random source whose
draws are the nonnegative values `gen_bool` consumes) the cell map contains
exactly that one tree. -/
theorem center_ignition (w h d : Nat) (p dens : ℚ) (rng : StdRng) :
    (mapLookup (Forest.new w h p d dens rng).trees
        (GridPosition.new (w / 2) (w / 2)) = some TreeState.Catching ∧
      (Forest.new w h p d dens rng).active = [GridPosition.new (w / 2) (w / 2)]) ∧
    (dens = 0 → (∀ i, 0 ≤ rng.draws i) →
      (Forest.new w h p d dens rng).trees =
        [(GridPosition.new (w / 2) (w / 2), TreeState.Catching)]) := by
  obtain ⟨ht, ha, _, _, _, _⟩ := new_components w h p d dens rng
  refine ⟨⟨?_, ha⟩, ?_⟩
  · rw [ht, mapLookup_mapInsert, if_pos rfl]
  · intro hdens hdraws
    subst hdens
    rw [ht, placeTrees_zero_density w h rng hdraws]
    rfl

theorem center_ignition_witness :
    ((0 : ℚ) = 0 ∧ (∀ i, (0 : ℚ) ≤ rng0.draws i)) ∧
    mapLookup (Forest.new 5 3 0 1 0 rng0).trees (GridPosition.new 2 2) =
      some TreeState.Catching ∧
    (Forest.new 5 3 0 1 0 rng0).active = [GridPosition.new 2 2] ∧
    (Forest.new 5 3 0 1 0 rng0).trees = [(GridPosition.new 2 2, TreeState.Catching)] :=
  ⟨⟨rfl, fun _ => le_refl 0⟩,
    (center_ignition 5 3 1 0 0 rng0).1.1,
    (center_ignition 5 3 1 0 0 rng0).1.2,
    (center_ignition 5 3 1 0 0 rng0).2 rfl (fun _ => le_refl 0)⟩

/-- C6 is violated by the code: with grid width 4, grid height 1 and tree
density 0 the constructed cell map contains the ignition coordinate (2, 2),
whose y-component (`grid_width / 2`) is not below the grid height.  This
evaluates `Forest::new` at the failing input. -/
theorem out_of_grid_failing_input :
    mapLookup (Forest.new 4 1 0 1 0 rng0).trees (GridPosition.new 2 2) =
      some TreeState.Catching ∧
    ¬ ((GridPosition.new 2 2).y < (Forest.new 4 1 0 1 0 rng0).grid_height) := by
  constructor
  · decide
  · decide

/-- C7 counterexample: at x = 2^63 - 1 (`isize::MAX`) the source's
`checked_add` overflows for the +1 offsets, so the code omits the neighbors
(2^63, 0) and (2^63, 1) that the claim requires for every coordinate. -/
theorem neighbors_counterexample :
    GridPosition.neighbors (GridPosition.new (2 ^ 63 - 1) 0) ≠
      claimNeighbors (GridPosition.new (2 ^ 63 - 1) 0) := by
  decide

/-- C7 amended: for every coordinate whose components are small enough that
the `usize`-to-`isize` casts are value-preserving and `checked_add` cannot
overflow (x + 1 < 2^63 and y + 1 < 2^63), `neighbors` yields exactly the
eight offset sums with negative results omitted, in the fixed offset order,
and depends only on the coordinate. -/
theorem neighbors_contract (pos : GridPosition) (hx : pos.x + 1 < 2 ^ 63)
    (hy : pos.y + 1 < 2 ^ 63) :
    pos.neighbors = claimNeighbors pos := by
  obtain ⟨px, py⟩ := pos
  simp only at hx hy
  have hux : usizeToIsize px = (px : Int) := by
    rw [usizeToIsize, if_pos (by omega)]
  have huy : usizeToIsize py = (py : Int) := by
    rw [usizeToIsize, if_pos (by omega)]
  have hca : ∀ (n : Nat) (dd : Int), n + 1 < 2 ^ 63 → -1 ≤ dd → dd ≤ 1 →
      isizeCheckedAdd (n : Int) dd = some ((n : Int) + dd) := by
    intro n dd hn h1 h2
    rw [isizeCheckedAdd, if_pos]
    refine ⟨?_, ?_⟩
    · rw [isizeMin]; omega
    · rw [isizeMax]; omega
  rw [GridPosition.neighbors, claimNeighbors]
  refine List.filterMap_congr ?_
  intro delta hd
  simp only [DELTAS, List.mem_cons, List.not_mem_nil, or_false] at hd
  simp only [hux, huy]
  rcases hd with rfl | rfl | rfl | rfl | rfl | rfl | rfl | rfl <;>
    rw [hca px _ hx (by norm_num) (by norm_num), hca py _ hy (by norm_num) (by norm_num)]

theorem neighbors_contract_witness :
    (5 + 1 < 2 ^ 63 ∧ 7 + 1 < 2 ^ 63) ∧
      GridPosition.neighbors (GridPosition.new 5 7) =
        claimNeighbors (GridPosition.new 5 7) :=
  ⟨⟨by norm_num, by norm_num⟩,
    neighbors_contract (GridPosition.new 5 7) (by decide) (by decide)⟩

/-- C4: Burn-duration contract: a cell that is `Catching` during the tick
whose counter is T becomes `Burning(T + burn_duration)` in that tick; the
payload is the absolute tick index of the conversion: with D ≥ 1 (burn
duration is a positive integer) the cell is still `Burning(T + D)` after
every j-th subsequent tick for 1 ≤ j ≤ D, and is `Burnt` after every j-th
tick for j ≥ D + 1 — so the conversion happens during the tick whose
counter is T + D, never earlier and never later. -/
theorem burn_duration_contract (f : Forest) (h : Reachable f)
    (hd : 1 ≤ f.burn_duration) (pos : GridPosition)
    (hc : mapLookup f.trees pos = some TreeState.Catching) :
    (∀ j, 1 ≤ j → j ≤ f.burn_duration →
      mapLookup (Forest.tick^[j] f).trees pos =
        some (TreeState.Burning (f.tickCount + f.burn_duration))) ∧
    (∀ j, f.burn_duration + 1 ≤ j →
      mapLookup (Forest.tick^[j] f).trees pos = some TreeState.Burnt) := by
  have hI := Reachable_inv h
  have hburn : ∀ j, 1 ≤ j → j ≤ f.burn_duration →
      mapLookup (Forest.tick^[j] f).trees pos =
        some (TreeState.Burning (f.tickCount + f.burn_duration)) := by
    intro j
    induction j with
    | zero => intro h1 _; omega
    | succ j ihj =>
      intro _ h2
      by_cases hj : j = 0
      · subst hj
        rw [show Forest.tick^[1] f = f.tick from rfl]
        exact tick_lookup_catching hI hc
      · have hprev := ihj (by omega) (by omega)
        rw [Function.iterate_succ_apply']
        have hIj := Reachable_inv (Reachable_iterate h j)
        have hstep := tick_lookup_burning hIj hprev
        rw [iterate_tickCount f j] at hstep
        rw [hstep, if_neg (by omega)]
  refine ⟨hburn, ?_⟩
  intro j
  induction j with
  | zero => intro hj; omega
  | succ j ihj =>
    intro hj
    by_cases hj0 : j = f.burn_duration
    · subst hj0
      rw [Function.iterate_succ_apply']
      have hIj := Reachable_inv (Reachable_iterate h f.burn_duration)
      have hprev := hburn f.burn_duration hd le_rfl
      have hstep := tick_lookup_burning hIj hprev
      rw [iterate_tickCount f f.burn_duration] at hstep
      rw [hstep, if_pos (by omega)]
    · have hprev := ihj (by omega)
      rw [Function.iterate_succ_apply']
      have hIj := Reachable_inv (Reachable_iterate h j)
      exact tick_lookup_burnt hIj hprev

theorem burn_duration_contract_witness :
    (Reachable (Forest.new 1 1 0 2 0 rng0) ∧
      1 ≤ (Forest.new 1 1 0 2 0 rng0).burn_duration ∧
      mapLookup (Forest.new 1 1 0 2 0 rng0).trees (GridPosition.new 0 0) =
        some TreeState.Catching) ∧
    mapLookup (Forest.tick^[1] (Forest.new 1 1 0 2 0 rng0)).trees (GridPosition.new 0 0) =
      some (TreeState.Burning ((Forest.new 1 1 0 2 0 rng0).tickCount +
        (Forest.new 1 1 0 2 0 rng0).burn_duration)) ∧
    mapLookup (Forest.tick^[2] (Forest.new 1 1 0 2 0 rng0)).trees (GridPosition.new 0 0) =
      some (TreeState.Burning ((Forest.new 1 1 0 2 0 rng0).tickCount +
        (Forest.new 1 1 0 2 0 rng0).burn_duration)) ∧
    mapLookup (Forest.tick^[3] (Forest.new 1 1 0 2 0 rng0)).trees (GridPosition.new 0 0) =
      some TreeState.Burnt :=
  ⟨⟨Reachable_new 1 1 0 2 0 rng0, by decide, by decide⟩,
    (burn_duration_contract _ (Reachable_new 1 1 0 2 0 rng0) (by decide)
      (GridPosition.new 0 0) (by decide)).1 1 (by decide) (by decide),
    (burn_duration_contract _ (Reachable_new 1 1 0 2 0 rng0) (by decide)
      (GridPosition.new 0 0) (by decide)).1 2 (by decide) (by decide),
    (burn_duration_contract _ (Reachable_new 1 1 0 2 0 rng0) (by decide)
      (GridPosition.new 0 0) (by decide)).2 3 (by decide)⟩

/-! ### Accumulator counting bridges (for C5) -/

theorem mbCount_eq_filter_length {trees : List (GridPosition × TreeState)}
    {q : GridPosition} (hu : mapLookup trees q = some TreeState.Uncaught) :
    ∀ l : List GridPosition, mbCount trees l q =
      (l.filter (fun pos => isBurningB (mapLookup trees pos) &&
        decide (q ∈ pos.neighbors))).length := by
  intro l
  induction l with
  | nil => rfl
  | cons pos rest ih =>
    have hcnt : pos.neighbors.countP (uncaughtHit trees q) =
        if q ∈ pos.neighbors then 1 else 0 := by
      refine countP_eq_ite_of_nodup (neighbors_nodup pos) q _ ?_
      intro n
      simp only [uncaughtHit, Bool.and_eq_true, decide_eq_true_eq]
      constructor
      · exact fun hh => hh.1
      · rintro rfl
        exact ⟨rfl, hu⟩
    cases hl : mapLookup trees pos with
    | none =>
      have hsum : mbCount trees (pos :: rest) q = mbCount trees rest q := by
        simp [mbCount, hl]
      rw [hsum, ih, List.filter_cons_of_neg (by simp [isBurningB, hl])]
    | some st =>
      cases st with
      | Uncaught =>
        have hsum : mbCount trees (pos :: rest) q = mbCount trees rest q := by
          simp [mbCount, hl]
        rw [hsum, ih, List.filter_cons_of_neg (by simp [isBurningB, hl])]
      | Catching =>
        have hsum : mbCount trees (pos :: rest) q = mbCount trees rest q := by
          simp [mbCount, hl]
        rw [hsum, ih, List.filter_cons_of_neg (by simp [isBurningB, hl])]
      | Burnt =>
        have hsum : mbCount trees (pos :: rest) q = mbCount trees rest q := by
          simp [mbCount, hl]
        rw [hsum, ih, List.filter_cons_of_neg (by simp [isBurningB, hl])]
      | Burning u =>
        by_cases hmem : q ∈ pos.neighbors
        · have hsum : mbCount trees (pos :: rest) q = 1 + mbCount trees rest q := by
            simp [mbCount, hl, hcnt, hmem]
          rw [hsum, ih, List.filter_cons_of_pos (by simp [isBurningB, hl, hmem]),
            List.length_cons]
          omega
        · have hsum : mbCount trees (pos :: rest) q = mbCount trees rest q := by
            simp [mbCount, hl, hcnt, hmem]
          rw [hsum, ih, List.filter_cons_of_neg (by simp [isBurningB, hl, hmem])]

theorem filter_length_eq_burningNeighborCount (f : Forest) (hI : Inv f)
    (q : GridPosition) :
    (f.active.filter (fun pos => isBurningB (mapLookup f.trees pos) &&
      decide (q ∈ pos.neighbors))).length = f.burningNeighborCount q := by
  rw [Forest.burningNeighborCount]
  have hlist : f.active.filter (fun pos => isBurningB (mapLookup f.trees pos) &&
      decide (q ∈ pos.neighbors)) =
      (f.trees.filter (fun e => isBurningB (some e.2) &&
        decide (q ∈ e.1.neighbors))).map Prod.fst := by
    refine sorted_eq_of_mem_iff (List.Pairwise.filter _ hI.active_sorted)
      (List.pairwise_map.mpr (List.Pairwise.filter _ hI.trees_sorted)) ?_
    intro x
    constructor
    · intro hx
      rw [List.mem_filter] at hx
      obtain ⟨hxa, hxp⟩ := hx
      rw [Bool.and_eq_true] at hxp
      obtain ⟨hburn, hnb⟩ := hxp
      obtain ⟨u, hu⟩ : ∃ u, mapLookup f.trees x = some (TreeState.Burning u) := by
        cases hl : mapLookup f.trees x with
        | none => rw [hl] at hburn; simp [isBurningB] at hburn
        | some st =>
          cases st with
          | Burning u => exact ⟨u, rfl⟩
          | Uncaught => rw [hl] at hburn; simp [isBurningB] at hburn
          | Catching => rw [hl] at hburn; simp [isBurningB] at hburn
          | Burnt => rw [hl] at hburn; simp [isBurningB] at hburn
      refine List.mem_map.mpr ⟨(x, TreeState.Burning u), ?_, rfl⟩
      rw [List.mem_filter]
      refine ⟨mem_of_mapLookup_eq_some hu, ?_⟩
      simp only [isBurningB, Bool.true_and]
      exact hnb
    · intro hx
      rcases List.mem_map.mp hx with ⟨e, he, rfl⟩
      rw [List.mem_filter] at he
      obtain ⟨het, hep⟩ := he
      have hlk : mapLookup f.trees e.1 = some e.2 :=
        mapLookup_eq_some_of_mem hI.trees_sorted het
      rw [Bool.and_eq_true] at hep
      obtain ⟨hburn, hnb⟩ := hep
      rw [List.mem_filter]
      constructor
      · refine (hI.consistent e.1).mpr ?_
        rw [hlk]
        cases hst : e.2 with
        | Burning u => simp [isActive]
        | Uncaught => rw [hst] at hburn; simp [isBurningB] at hburn
        | Catching => rw [hst] at hburn; simp [isBurningB] at hburn
        | Burnt => rw [hst] at hburn; simp [isBurningB] at hburn
      · rw [Bool.and_eq_true, hlk]
        exact ⟨hburn, hnb⟩
  rw [hlist, List.length_map]

theorem propagate_fst (f : Forest) (hmb : f.may_burn = []) :
    (f.propagate).1 = f.tickMayBurn := by
  rw [propagate_eq, hmb]
  rfl

/-- C5: Pending-ignition accumulation: after the propagation pass the
accumulator maps exactly the `Uncaught`-tree coordinates with at least one
adjacent `Burning` cell to (1 - p)^k, with k the number of adjacent
`Burning` cells this tick; the decision pass then makes exactly one Boolean
draw per accumulator entry (the random cursor advances by exactly the
number of entries) with success probability the accumulated value, the
entry's cell is `Catching` after the tick exactly when its draw fails, and
the accumulator is empty after the tick. -/
theorem pending_ignition_accumulation (f : Forest) (h : Reachable f) :
    (∀ q, mapLookup (f.propagate).1 q =
      if mapLookup f.trees q = some TreeState.Uncaught ∧ 0 < f.burningNeighborCount q
      then some ((1 - f.suceptibility) ^ (f.burningNeighborCount q))
      else none) ∧
    ((f.tick).rng.draws = f.rng.draws ∧
     (f.tick).rng.idx = f.rng.idx + (f.propagate).1.length ∧
     (f.tick).may_burn = []) ∧
    (∀ (j : Nat) (hj : j < (f.propagate).1.length),
      mapLookup (f.tick).trees ((f.propagate).1.get ⟨j, hj⟩).1 =
          some TreeState.Catching ↔
        ¬ (f.rng.draws (f.rng.idx + j) < ((f.propagate).1.get ⟨j, hj⟩).2)) := by
  have hI := Reachable_inv h
  have hp := propagate_fst f hI.mb_empty
  refine ⟨?_, ⟨?_, ?_, ?_⟩, ?_⟩
  · intro q
    rw [hp, Forest.tickMayBurn, mayBurn_fold_lookup]
    by_cases hu : mapLookup f.trees q = some TreeState.Uncaught
    · have hbc : mbCount f.trees f.active q = f.burningNeighborCount q := by
        rw [mbCount_eq_filter_length hu f.active,
          filter_length_eq_burningNeighborCount f hI q]
      rw [hbc]
      by_cases h0 : f.burningNeighborCount q = 0
      · rw [if_pos h0, if_neg (by rintro ⟨_, hlt⟩; omega)]
        rfl
      · rw [if_neg h0, if_pos ⟨hu, by omega⟩]
        show some (((none : Option ℚ).getD 1) * _) = _
        rw [Option.getD_none, one_mul]
    · have hc : mbCount f.trees f.active q = 0 := by
        by_contra hcc
        exact hu (mbCount_ne_zero_uncaught hcc)
      rw [if_pos hc, if_neg (fun hh => hu hh.1)]
      rfl
  · rw [tick_eq f hI.mb_empty hI.cs_empty]
  · rw [tick_eq f hI.mb_empty hI.cs_empty, hp]
  · rw [tick_eq f hI.mb_empty hI.cs_empty]
  · intro j
    rw [hp]
    intro hj'
    have hqk : (f.tickMayBurn.get ⟨j, hj'⟩).1 ∈ f.tickMayBurn.map Prod.fst :=
      List.mem_map_of_mem Prod.fst (List.get_mem _ _ _)
    have hqu := tickMayBurn_keys_uncaught f hqk
    have hnodup := keys_nodup_of_keysSorted (keysSorted_tickMayBurn f)
    have hw := lastWrite_pass2List_get (d := f.rng.draws) hnodup j hj' (i := f.rng.idx)
    have hlook := tick_trees_lookup f hI (f.tickMayBurn.get ⟨j, hj'⟩).1
    rw [hqu, hw] at hlook
    by_cases hlt : f.rng.draws (f.rng.idx + j) < (f.tickMayBurn.get ⟨j, hj'⟩).2
    · rw [if_pos hlt] at hlook
      simp only [hlook]
      simp only [List.get_eq_getElem] at hlt
      simp [hlt]
    · rw [if_neg hlt] at hlook
      simp only [hlook]
      simp only [List.get_eq_getElem] at hlt
      simp [hlt]

theorem pending_ignition_accumulation_witness :
    Reachable c5Forest ∧
    mapLookup (c5Forest.propagate).1 (GridPosition.new 0 0) =
      (if mapLookup c5Forest.trees (GridPosition.new 0 0) = some TreeState.Uncaught ∧
          0 < c5Forest.burningNeighborCount (GridPosition.new 0 0)
       then some ((1 - c5Forest.suceptibility) ^
          (c5Forest.burningNeighborCount (GridPosition.new 0 0)))
       else none) ∧
    ((c5Forest.tick).rng.draws = c5Forest.rng.draws ∧
     (c5Forest.tick).rng.idx = c5Forest.rng.idx + (c5Forest.propagate).1.length ∧
     (c5Forest.tick).may_burn = []) :=
  ⟨⟨2, 2, 1/2, 1, 1, rng0, 1, rfl⟩,
    (pending_ignition_accumulation c5Forest ⟨2, 2, 1/2, 1, 1, rng0, 1, rfl⟩).1
      (GridPosition.new 0 0),
    (pending_ignition_accumulation c5Forest ⟨2, 2, 1/2, 1, 1, rng0, 1, rfl⟩).2.1⟩

end ForestFire
